import Mathlib

/-!
# UserListJSON: the multi-coin user directory with cached incremental snapshots

A shallow embedding of `userChainAPIServer/initUserCoin/UserListJSON.cpp`, and
of its single-map predecessor `initUserCoin/UserListJSON.cpp` (namespace
`Legacy`).

* `std::map<K, V>` is a list of key/value pairs kept in ascending key order
  (`StdMap`). The operations assume, and preserve, that order; an iterator is
  the list of the elements from its position to `end()`.
* The three process-wide maps form the `State`; every operation takes the state
  and returns the new one (the single lock serialises the operations, so an
  operation is one atomic step).
* `int` and `time_t` values are `Int`: the code only stores, compares and prints
  them, so no arithmetic can overflow.
* `const char*` arguments and `std::string` values are `String`s. A C string
  holds no NUL character, so `c_str()` of a document built from such handles is
  the whole document.
* `time(nullptr)` is an input of `addUser` (the clock reading `now`).
-/

namespace UserListJSON

/-! ## `std::map` -/

/-- A `std::map<K, V>`: its elements in iteration order. -/
abbrev StdMap (K V : Type) := List (K × V)

/-- The key comparison `std::less<K>` of a map. -/
class Less (K : Type) where
  /-- `less a b` is `a < b` -/
  less : K → K → Bool

/-- `std::less<int>`. -/
instance : Less Int := ⟨fun a b => decide (a < b)⟩

/-- Lexicographic comparison of two character sequences by code point (on
UTF-8 text the order of the byte-wise comparison). -/
def lessChars : List Char → List Char → Bool
  | _, [] => false
  | [], _ :: _ => true
  | a :: as, b :: bs =>
    if a.toNat < b.toNat then true
    else if b.toNat < a.toNat then false
    else lessChars as bs

/-- `std::less<std::string>`: lexicographic comparison. -/
instance : Less String := ⟨fun a b => lessChars a.data b.data⟩

namespace StdMap

variable {K V : Type}

/-- `m.find(k)`: the value stored under `k`, `none` standing for `m.end()`. -/
def find [DecidableEq K] (k : K) : StdMap K V → Option V
  | [] => none
  | (k', v) :: rest => if k' = k then some v else find k rest

/-- `m[k] = v`: inserts `k` at its place in the key order, or overwrites the
value already stored under `k`. -/
def assign [DecidableEq K] [Less K]
    (k : K) (v : V) : StdMap K V → StdMap K V
  | [] => [(k, v)]
  | (k', v') :: rest =>
    if Less.less k k' then (k, v) :: (k', v') :: rest
    else if k = k' then (k, v) :: rest
    else (k', v') :: assign k v rest

/-- The map after evaluating `m[k]`: a value-initialised element is inserted
when `k` is absent, and nothing changes otherwise. -/
def touch [DecidableEq K] [Less K] [Inhabited V]
    (k : K) (m : StdMap K V) : StdMap K V :=
  match find k m with
  | some _ => m
  | none => assign k default m

/-- The element `m[k]` refers to (value-initialised when `k` was absent). -/
def index [DecidableEq K] [Inhabited V] (k : K) (m : StdMap K V) : V :=
  (find k m).getD default

/-- `m.erase(k)`. -/
def erase [DecidableEq K] (k : K) (m : StdMap K V) : StdMap K V :=
  m.filter (fun e => decide (e.1 ≠ k))

/-- `m.begin()`: the iterator at the first element. -/
def begin (m : StdMap K V) : List (K × V) := m

/-- `m.upper_bound(k)`: the iterator at the first element whose key is greater
than `k`. -/
def upper_bound [Less K]
    (k : K) (m : StdMap K V) : List (K × V) :=
  m.dropWhile (fun e => !Less.less k e.1)

end StdMap

/-! ## The process-wide state -/

/-- The cached document of one coin and the cursor it was built for. -/
structure JSONCache where
  lastUserId : Int
  json : String
  deriving DecidableEq, Repr

instance : Inhabited JSONCache := ⟨⟨0, ""⟩⟩

/-- The three global maps of `UserListJSON.cpp`. -/
structure State where
  /-- coin ↦ (puid ↦ puname) -/
  userIDMaps : StdMap String (StdMap Int String)
  /-- coin ↦ (puname ↦ updateTime) -/
  userUpdateTimeMaps : StdMap String (StdMap String Int)
  /-- coin ↦ cached document -/
  userListJsonCaches : StdMap String JSONCache
  deriving DecidableEq, Repr

/-- The state at process start: all three maps are empty. -/
def State.empty : State := ⟨[], [], []⟩

/-- The statement `outer[coin][key] = value` on a map of maps. -/
def assign2 {K V : Type} [DecidableEq K] [Less K]
    (coin : String) (key : K) (value : V)
    (outer : StdMap String (StdMap K V)) : StdMap String (StdMap K V) :=
  StdMap.assign coin (StdMap.assign key value (StdMap.index coin outer)) outer

/-- `addUser(puid, puname, coin)`, with `now` the value `time(nullptr)` returned. -/
def addUser (s : State) (puid : Int) (puname coin : String) (now : Int) : State :=
  let userIDMaps := assign2 coin puid puname s.userIDMaps
  let userIDMaps := assign2 "" puid puname userIDMaps
  let userUpdateTimeMaps := assign2 coin puname now s.userUpdateTimeMaps
  let userUpdateTimeMaps := assign2 "" puname now userUpdateTimeMaps
  let userListJsonCaches := StdMap.erase coin s.userListJsonCaches
  let userListJsonCaches := StdMap.erase "" userListJsonCaches
  ⟨userIDMaps, userUpdateTimeMaps, userListJsonCaches⟩

/-- `std::to_string(int)`: the signed decimal numeral. -/
def to_string (n : Int) : String := toString n

/-- The `while (iter != userIDMap.end())` loop of `getUserListJson`: `iter` is
the list of the elements from the iterator to the end, `json` the document
built so far. -/
def appendEntries (json : String) : List (Int × String) → String
  | [] => json
  | (puid, puname) :: iter =>
    let json := json ++ "\""
    let json := json ++ puname
    let json := json ++ "\":"
    let json := json ++ to_string puid
    let json := if iter ≠ [] then json ++ "," else json
    appendEntries json iter

/-- The iterator `getUserListJson` starts its loop from (lines 53 to 61): the
entries the loop visits, in order. -/
def startIter (userIDMap : StdMap Int String) (lastUserId : Int) : List (Int × String) :=
  if lastUserId ≤ 0 then StdMap.begin userIDMap
  else StdMap.upper_bound lastUserId userIDMap

/-- The document `getUserListJson` builds from the iterator `iter` (lines 63
to 75): the envelope's opening, the loop, the closing braces. -/
def serialize (iter : List (Int × String)) : String :=
  let json := "\x7b\"err_no\":0,\"err_msg\":null,\"data\":\x7b"
  let json := appendEntries json iter
  json ++ "\x7d\x7d"

/-- The rebuild of `getUserListJson` (lines 52 to 75): the document for the
partition `userIDMap` at cursor `lastUserId`. -/
def buildJson (userIDMap : StdMap Int String) (lastUserId : Int) : String :=
  serialize (startIter userIDMap lastUserId)

/-! ## The document format of the specification -/

/-- One item of the `data` object as the specification writes it: the handle
between two double quotes, a colon, the id in decimal. -/
def specItem (e : Int × String) : String :=
  "\"" ++ e.2 ++ "\":" ++ to_string e.1

/-- The document of the specification for the entries `entries`: the fixed
envelope around the items joined by commas. -/
def specDocument (entries : List (Int × String)) : String :=
  "\x7b\"err_no\":0,\"err_msg\":null,\"data\":\x7b"
    ++ String.intercalate "," (entries.map specItem) ++ "\x7d\x7d"

/-- `getUserListJson(lastUserId, coin)`: the returned document and the state
after the call. -/
def getUserListJson (s : State) (lastUserId : Int) (coin : String) : String × State :=
  let userListJsonCaches := StdMap.touch coin s.userListJsonCaches
  let cache := StdMap.index coin userListJsonCaches
  if !cache.json.isEmpty && cache.lastUserId == lastUserId then
    (cache.json, { s with userListJsonCaches := userListJsonCaches })
  else
    let userIDMaps := StdMap.touch coin s.userIDMaps
    let userIDMap := StdMap.index coin userIDMaps
    let json := buildJson userIDMap lastUserId
    (json, { s with
      userIDMaps := userIDMaps
      userListJsonCaches := StdMap.assign coin ⟨lastUserId, json⟩ userListJsonCaches })

/-- `getUserUpdateTime(puname, coin)`: the returned time and the state after
the call (`userUpdateTimeMaps[coin]` inserts an empty index for a new coin). -/
def getUserUpdateTime (s : State) (puname coin : String) : Int × State :=
  let userUpdateTimeMaps := StdMap.touch coin s.userUpdateTimeMaps
  let s' := { s with userUpdateTimeMaps := userUpdateTimeMaps }
  match StdMap.find puname (StdMap.index coin userUpdateTimeMaps) with
  | none => (0, s')
  | some updateTime => (updateTime, s')

/-! ## Sequences of calls -/

/-- One call of the interface. -/
inductive Op where
  | addUser (puid : Int) (puname coin : String) (now : Int)
  | getUserListJson (lastUserId : Int) (coin : String)
  | getUserUpdateTime (puname coin : String)
  deriving DecidableEq, Repr

/-- The state after one call. -/
def step (s : State) : Op → State
  | .addUser puid puname coin now => addUser s puid puname coin now
  | .getUserListJson lastUserId coin => (getUserListJson s lastUserId coin).2
  | .getUserUpdateTime puname coin => (getUserUpdateTime s puname coin).2

/-- The state reached from `s` by a sequence of calls. -/
def runFrom (s : State) (ops : List Op) : State := ops.foldl step s

/-- The state reached from the empty state by a sequence of calls. -/
def run (ops : List Op) : State := runFrom State.empty ops

/-- The partition of `coin`: its `puid ↦ puname` entries in iteration order
(empty when the coin has never been seen). -/
def partition (s : State) (coin : String) : StdMap Int String :=
  StdMap.index coin s.userIDMaps

/-- The update-time index of `coin`. -/
def updateTimes (s : State) (coin : String) : StdMap String Int :=
  StdMap.index coin s.userUpdateTimeMaps

/-- The order invariant of a `std::map<int, string>`: strictly ascending ids. -/
def SortedById (m : StdMap Int String) : Prop :=
  m.Pairwise (fun a b => a.1 < b.1)

/-- Every partition of the state is in strictly ascending id order. -/
def SortedState (s : State) : Prop :=
  ∀ coin, SortedById (partition s coin)

/-- The entries of a partition whose id is strictly greater than the cursor. -/
def entriesAbove (lastUserId : Int) (m : StdMap Int String) : List (Int × String) :=
  m.filter (fun e => decide (lastUserId < e.1))

/-- Whether a call writes to the partition of `coin`: an `addUser` under
`coin` itself, or any `addUser` when `coin` is the merged coin `""` (lines 31
and 32). -/
def Op.affects (coin : String) : Op → Bool
  | .addUser _ _ coin' _ => coin' == coin || coin == ""
  | .getUserListJson _ _ => false
  | .getUserUpdateTime _ _ => false

/-- The arguments of one `addUser` call and the clock reading it took. -/
structure AddUserCall where
  puid : Int
  puname : String
  coin : String
  now : Int
  deriving DecidableEq, Repr

/-- The most recent `addUser` call of `ops` that `sel` selects, if any. -/
def lastAddUser (sel : AddUserCall → Bool) (ops : List Op) : Option AddUserCall :=
  ops.foldl (fun latest op =>
    match op with
    | .addUser puid puname coin now =>
      if sel ⟨puid, puname, coin, now⟩ then some ⟨puid, puname, coin, now⟩ else latest
    | _ => latest) none

/-- The call wrote `puid` into the partition of `coin`: it names `puid`, under
`coin` itself or, for the merged coin `""`, under any coin. -/
def writesId (coin : String) (puid : Int) (a : AddUserCall) : Bool :=
  decide (a.puid = puid ∧ (a.coin = coin ∨ coin = ""))

/-- The call wrote `puname` into the update-time index of `coin`: it names
`puname`, under `coin` itself or, for the merged coin `""`, under any coin. -/
def writesName (coin puname : String) (a : AddUserCall) : Bool :=
  decide (a.puname = puname ∧ (a.coin = coin ∨ coin = ""))

/-- The call is an `addUser(_, puname, coin)`. -/
def isAddUserOf (coin puname : String) (a : AddUserCall) : Bool :=
  decide (a.puname = puname ∧ a.coin = coin)

/-- The call names the handle `puname`, under whatever coin. -/
def namesHandle (puname : String) (a : AddUserCall) : Bool :=
  decide (a.puname = puname)

/-- The update-time property as the specification states it, for one run, handle
and coin: `getUserUpdateTime(h, c)` is `0` when no `addUser(_, h, c)` was called
and the clock reading of the most recent `addUser(_, h, c)` otherwise. -/
def UpdateTimeAsStated (ops : List Op) (puname coin : String) : Prop :=
  (getUserUpdateTime (run ops) puname coin).1
    = match lastAddUser (isAddUserOf coin puname) ops with
      | none => 0
      | some a => a.now

/-- The merged mirror property as the specification states it: every entry of
every coin's partition is in the merged partition with the same handle. -/
def MergedMirror (s : State) : Prop :=
  ∀ coin puid puname, (puid, puname) ∈ partition s coin → (puid, puname) ∈ partition s ""

/-- Whether a call is an `addUser` under the merged coin `""`. -/
def Op.usesMergedCoin : Op → Bool
  | .addUser _ _ coin _ => coin == ""
  | .getUserListJson _ _ => false
  | .getUserUpdateTime _ _ => false

/-- The cache-hit test of `getUserListJson` (line 47). -/
def cacheHit (s : State) (lastUserId : Int) (coin : String) : Bool :=
  let cache := StdMap.index coin (StdMap.touch coin s.userListJsonCaches)
  !cache.json.isEmpty && cache.lastUserId == lastUserId

/-- The snapshot-cache entry stored for `coin`, if any. -/
def cacheEntry (s : State) (coin : String) : Option JSONCache :=
  StdMap.find coin s.userListJsonCaches

/-- Every stored cache entry holds the rebuild of its coin's current partition
at the cursor stored with it. -/
def Coherent (s : State) : Prop :=
  ∀ coin cache, cacheEntry s coin = some cache →
    cache.json = buildJson (partition s coin) cache.lastUserId

/-- The text ends with a character that is not a comma. -/
def EndsWithoutComma (t : String) : Prop :=
  ∃ (front : List Char) (c : Char), t.data = front ++ [c] ∧ c ≠ ','

/-- Cursor exclusivity as the specification states it, for one state, cursor
and coin: no entry the loop of `getUserListJson` lists has the cursor as its id. -/
def CursorExclusive (s : State) (lastUserId : Int) (coin : String) : Prop :=
  ∀ e ∈ startIter (partition s coin) lastUserId, e.1 ≠ lastUserId

/-! ## The single-map predecessor, `initUserCoin/UserListJSON.cpp` -/

namespace Legacy

/-- The globals of the single-map file: the id map and the document buffer. -/
structure State where
  userIDMap : StdMap Int String
  userMapJSON : String
  deriving DecidableEq, Repr

/-- The state at process start. -/
def State.empty : State := ⟨[], ""⟩

/-- The single-map `addUser(puid, puname)`. -/
def addUser (s : State) (puid : Int) (puname : String) : State :=
  { s with userIDMap := StdMap.assign puid puname s.userIDMap }

/-- The `while (iter != userIDMap.end())` loop of the single-map
`getUserListJson` (lines 35 to 43). -/
def appendEntries (userMapJSON : String) : List (Int × String) → String
  | [] => userMapJSON
  | (puid, puname) :: iter =>
    let userMapJSON := userMapJSON ++ "\""
    let userMapJSON := userMapJSON ++ puname
    let userMapJSON := userMapJSON ++ "\":"
    let userMapJSON := userMapJSON ++ to_string puid
    let userMapJSON := if iter ≠ [] then userMapJSON ++ "," else userMapJSON
    appendEntries userMapJSON iter

/-- The single-map `getUserListJson(lastUserId)`: no cache, the document is
rebuilt into the global buffer on every call. -/
def getUserListJson (s : State) (lastUserId : Int) : String × State :=
  let iter := if lastUserId = 0 then StdMap.begin s.userIDMap
    else StdMap.upper_bound lastUserId s.userIDMap
  let userMapJSON := "\x7b\"err_no\":0,\"err_msg\":null,\"data\":\x7b"
  let userMapJSON := appendEntries userMapJSON iter
  let userMapJSON := userMapJSON ++ "\x7d\x7d"
  (userMapJSON, { s with userMapJSON := userMapJSON })

/-- One call of the single-map interface. -/
inductive Op where
  | addUser (puid : Int) (puname : String)
  | getUserListJson (lastUserId : Int)
  deriving DecidableEq, Repr

/-- The state after one call. -/
def step (s : State) : Op → State
  | .addUser puid puname => addUser s puid puname
  | .getUserListJson lastUserId => (getUserListJson s lastUserId).2

/-- The state reached from the empty state by a sequence of calls. -/
def run (ops : List Op) : State := ops.foldl step State.empty

/-- The `(id, handle)` writes of a sequence of calls, in order. -/
def writes (ops : List Op) : List (Int × String) :=
  ops.filterMap fun op =>
    match op with
    | .addUser puid puname => some (puid, puname)
    | .getUserListJson _ => none

end Legacy

/-- The `(id, handle)` writes of a sequence of calls, in order. -/
def writes (ops : List Op) : List (Int × String) :=
  ops.filterMap fun op =>
    match op with
    | .addUser puid puname _ _ => some (puid, puname)
    | _ => none

/-- Every `addUser` of the call is under `coin` (reads are unrestricted). -/
def Op.addsOnlyUnder (coin : String) : Op → Bool
  | .addUser _ _ coin' _ => coin' == coin
  | .getUserListJson _ _ => true
  | .getUserUpdateTime _ _ => true

/-- The id map a sequence of `(id, handle)` writes builds from the empty map. -/
def applyWrites (ws : List (Int × String)) : StdMap Int String :=
  ws.foldl (fun m w => StdMap.assign w.1 w.2 m) []

/-- The clock readings the `addUser` calls of a sequence took, in order. -/
def clockReadings (ops : List Op) : List Int :=
  ops.filterMap fun op =>
    match op with
    | .addUser _ _ _ now => some now
    | _ => none

/-- The domination property as the specification states it, for one run, handle
and coin: the merged timestamp is at least the coin's timestamp. -/
def MergedTimeDominates (ops : List Op) (puname coin : String) : Prop :=
  (getUserUpdateTime (run ops) puname coin).1 ≤ (getUserUpdateTime (run ops) puname "").1

/-! ## Lemmas on `std::map` -/

namespace StdMap

variable {K V : Type}

theorem find_assign_self [DecidableEq K] [Less K] (k : K) (v : V) (m : StdMap K V) :
    find k (assign k v m) = some v := by
  induction m with
  | nil => simp [assign, find]
  | cons e rest ih =>
    obtain ⟨k', v'⟩ := e
    unfold assign
    by_cases h1 : Less.less k k' = true
    · simp [h1, find]
    · by_cases h2 : k = k'
      · subst h2
        simp [h1, find]
      · have h3 : ¬ k' = k := fun h => h2 h.symm
        simp [h1, h2, find, h3, ih]

theorem find_assign_ne [DecidableEq K] [Less K] (j k : K) (v : V) (m : StdMap K V)
    (h : j ≠ k) : find j (assign k v m) = find j m := by
  have hk : ¬ k = j := fun e => h e.symm
  induction m with
  | nil => simp [assign, find, hk]
  | cons e rest ih =>
    obtain ⟨k', v'⟩ := e
    unfold assign
    by_cases h1 : Less.less k k' = true
    · simp [h1, find, hk]
    · by_cases h2 : k = k'
      · subst h2
        simp [h1, find, hk]
      · simp [h1, h2, find, ih]

theorem find_erase_self [DecidableEq K] (k : K) (m : StdMap K V) :
    find k (erase k m) = none := by
  induction m with
  | nil => simp [erase, find]
  | cons e rest ih =>
    obtain ⟨k', v'⟩ := e
    by_cases h : k' = k
    · simpa [erase, List.filter_cons, h] using ih
    · simpa [erase, List.filter_cons, h, find] using ih

theorem find_erase_ne [DecidableEq K] (j k : K) (m : StdMap K V) (h : j ≠ k) :
    find j (erase k m) = find j m := by
  induction m with
  | nil => simp [erase, find]
  | cons e rest ih =>
    obtain ⟨k', v'⟩ := e
    by_cases h1 : k' = k
    · subst h1
      have h2 : ¬ k' = j := fun e => h e.symm
      simpa [erase, List.filter_cons, find, h2] using ih
    · by_cases h2 : k' = j
      · subst h2
        simp [erase, List.filter_cons, h1, find]
      · simpa [erase, List.filter_cons, h1, find, h2] using ih

theorem index_assign_self [DecidableEq K] [Less K] [Inhabited V] (k : K) (v : V)
    (m : StdMap K V) : index k (assign k v m) = v := by
  simp [index, find_assign_self]

theorem index_assign_ne [DecidableEq K] [Less K] [Inhabited V] (j k : K) (v : V)
    (m : StdMap K V) (h : j ≠ k) : index j (assign k v m) = index j m := by
  simp [index, find_assign_ne j k v m h]

theorem index_touch [DecidableEq K] [Less K] [Inhabited V] (j k : K) (m : StdMap K V) :
    index j (touch k m) = index j m := by
  unfold touch
  cases hf : find k m with
  | some v => rfl
  | none =>
    by_cases h : j = k
    · subst h
      simp [index, find_assign_self, hf]
    · exact index_assign_ne j k default m h

theorem touch_of_find [DecidableEq K] [Less K] [Inhabited V] (k : K) (v : V)
    (m : StdMap K V) (h : find k m = some v) : touch k m = m := by
  simp [touch, h]

theorem find_touch_ne [DecidableEq K] [Less K] [Inhabited V] (j k : K) (m : StdMap K V)
    (h : j ≠ k) : find j (touch k m) = find j m := by
  unfold touch
  cases hf : find k m with
  | some v => rfl
  | none => exact find_assign_ne j k default m h

theorem find_touch_self [DecidableEq K] [Less K] [Inhabited V] (k : K) (m : StdMap K V) :
    find k (touch k m) = some (index k m) := by
  unfold touch
  cases hf : find k m with
  | some v => simp [index, hf]
  | none => simp [index, hf, find_assign_self]

end StdMap

theorem lessChars_irrefl (a : List Char) : lessChars a a = false := by
  induction a with
  | nil => rfl
  | cons c cs ih => simp [lessChars, ih]

theorem less_irrefl_int (k : Int) : Less.less k k = false := by
  simp [Less.less]

theorem less_irrefl_string (k : String) : Less.less k k = false := by
  simp [Less.less, lessChars_irrefl]

theorem StdMap.assign_assign {K V : Type} [DecidableEq K] [Less K] (k : K) (v : V)
    (m : StdMap K V) (hirr : Less.less k k = false) :
    StdMap.assign k v (StdMap.assign k v m) = StdMap.assign k v m := by
  induction m with
  | nil => simp [StdMap.assign, hirr]
  | cons e rest ih =>
    obtain ⟨k', v'⟩ := e
    by_cases h1 : Less.less k k' = true
    · simp [StdMap.assign, h1, hirr]
    · by_cases h2 : k = k'
      · subst h2
        simp [StdMap.assign, hirr]
      · simp [StdMap.assign, h1, h2, ih]

/-! ## The effect of the operations on partitions, indexes and caches -/

theorem index_assign2 {K V : Type} [DecidableEq K] [Less K] (coin coin' : String)
    (key : K) (value : V) (outer : StdMap String (StdMap K V)) :
    StdMap.index coin' (assign2 coin key value outer) =
      if coin' = coin then StdMap.assign key value (StdMap.index coin outer)
      else StdMap.index coin' outer := by
  unfold assign2
  by_cases h : coin' = coin
  · subst h
    simp [StdMap.index_assign_self]
  · simp [h, StdMap.index_assign_ne coin' coin _ outer h]

theorem partition_addUser (s : State) (puid : Int) (puname coin : String) (now : Int)
    (coin' : String) :
    partition (addUser s puid puname coin now) coin' =
      if coin' = coin ∨ coin' = "" then StdMap.assign puid puname (partition s coin')
      else partition s coin' := by
  simp only [partition, addUser, index_assign2]
  by_cases h1 : coin' = ""
  · subst h1
    by_cases h2 : "" = coin
    · subst h2
      simp [StdMap.assign_assign _ _ _ (less_irrefl_int puid)]
    · simp [h2]
  · have h3 : ¬ "" = coin' := fun e => h1 e.symm
    by_cases h2 : coin' = coin
    · subst h2
      simp [h1, h3]
    · simp [h1, h2]

theorem updateTimes_addUser (s : State) (puid : Int) (puname coin : String) (now : Int)
    (coin' : String) :
    updateTimes (addUser s puid puname coin now) coin' =
      if coin' = coin ∨ coin' = "" then StdMap.assign puname now (updateTimes s coin')
      else updateTimes s coin' := by
  simp only [updateTimes, addUser, index_assign2]
  by_cases h1 : coin' = ""
  · subst h1
    by_cases h2 : "" = coin
    · subst h2
      simp [StdMap.assign_assign _ _ _ (less_irrefl_string puname)]
    · simp [h2]
  · have h3 : ¬ "" = coin' := fun e => h1 e.symm
    by_cases h2 : coin' = coin
    · subst h2
      simp [h1, h3]
    · simp [h1, h2]

theorem cacheEntry_addUser (s : State) (puid : Int) (puname coin : String) (now : Int)
    (coin' : String) :
    cacheEntry (addUser s puid puname coin now) coin' =
      if coin' = coin ∨ coin' = "" then none else cacheEntry s coin' := by
  simp only [cacheEntry, addUser]
  by_cases h1 : coin' = ""
  · subst h1
    simp [StdMap.find_erase_self]
  · rw [StdMap.find_erase_ne coin' "" _ h1]
    by_cases h2 : coin' = coin
    · subst h2
      simp [StdMap.find_erase_self]
    · simp [h1, h2, StdMap.find_erase_ne coin' coin _ h2]

theorem cacheHit_eq (s : State) (lastUserId : Int) (coin : String) :
    cacheHit s lastUserId coin =
      (!(StdMap.index coin s.userListJsonCaches).json.isEmpty
        && (StdMap.index coin s.userListJsonCaches).lastUserId == lastUserId) := by
  simp [cacheHit, StdMap.index_touch]

/-- A hit needs a stored entry: the value-initialised entry has an empty document. -/
theorem cacheEntry_of_cacheHit (s : State) (lastUserId : Int) (coin : String)
    (h : cacheHit s lastUserId coin = true) :
    ∃ cache, cacheEntry s coin = some cache ∧ cache.json.isEmpty = false
      ∧ cache.lastUserId = lastUserId := by
  rw [cacheHit_eq] at h
  unfold cacheEntry
  unfold StdMap.index at h
  cases hf : StdMap.find coin s.userListJsonCaches with
  | none =>
    rw [hf] at h
    simp [default, String.isEmpty] at h
  | some cache =>
    rw [hf] at h
    simp at h
    exact ⟨cache, rfl, h.1, h.2⟩

theorem cacheHit_of_cacheEntry (s : State) (coin : String) (cache : JSONCache)
    (h : cacheEntry s coin = some cache) (hne : cache.json.isEmpty = false) :
    cacheHit s cache.lastUserId coin = true := by
  unfold cacheEntry at h
  rw [cacheHit_eq]
  simp [StdMap.index, h, hne]

theorem getUserListJson_hit (s : State) (lastUserId : Int) (coin : String)
    (h : cacheHit s lastUserId coin = true) :
    getUserListJson s lastUserId coin = ((StdMap.index coin s.userListJsonCaches).json, s) := by
  obtain ⟨cache, hc, _, _⟩ := cacheEntry_of_cacheHit s lastUserId coin h
  have ht : StdMap.touch coin s.userListJsonCaches = s.userListJsonCaches :=
    StdMap.touch_of_find coin cache _ hc
  have h2 := h
  rw [cacheHit_eq] at h2
  unfold getUserListJson
  simp only [ht, h2, if_true]

theorem getUserListJson_miss (s : State) (lastUserId : Int) (coin : String)
    (h : cacheHit s lastUserId coin = false) :
    getUserListJson s lastUserId coin =
      (buildJson (partition s coin) lastUserId,
        { s with
          userIDMaps := StdMap.touch coin s.userIDMaps
          userListJsonCaches :=
            StdMap.assign coin ⟨lastUserId, buildJson (partition s coin) lastUserId⟩
              (StdMap.touch coin s.userListJsonCaches) }) := by
  have h2 := h
  rw [cacheHit_eq] at h2
  unfold getUserListJson
  simp only [StdMap.index_touch, h2, Bool.false_eq_true, if_false, partition]

theorem getUserUpdateTime_fst (s : State) (puname coin : String) :
    (getUserUpdateTime s puname coin).1 = (StdMap.find puname (updateTimes s coin)).getD 0 := by
  unfold getUserUpdateTime updateTimes
  simp only [StdMap.index_touch]
  cases StdMap.find puname (StdMap.index coin s.userUpdateTimeMaps) <;> rfl

theorem getUserUpdateTime_snd (s : State) (puname coin : String) :
    (getUserUpdateTime s puname coin).2 =
      { s with userUpdateTimeMaps := StdMap.touch coin s.userUpdateTimeMaps } := by
  unfold getUserUpdateTime
  simp only
  cases StdMap.find puname (StdMap.index coin (StdMap.touch coin s.userUpdateTimeMaps)) <;> rfl

theorem partition_getUserListJson (s : State) (lastUserId : Int) (coin coin' : String) :
    partition (getUserListJson s lastUserId coin).2 coin' = partition s coin' := by
  cases h : cacheHit s lastUserId coin with
  | true => rw [getUserListJson_hit s lastUserId coin h]
  | false =>
    rw [getUserListJson_miss s lastUserId coin h]
    simp [partition, StdMap.index_touch]

theorem updateTimes_getUserListJson (s : State) (lastUserId : Int) (coin coin' : String) :
    updateTimes (getUserListJson s lastUserId coin).2 coin' = updateTimes s coin' := by
  cases h : cacheHit s lastUserId coin with
  | true => rw [getUserListJson_hit s lastUserId coin h]
  | false =>
    rw [getUserListJson_miss s lastUserId coin h]
    simp [updateTimes]

theorem cacheEntry_getUserListJson_miss (s : State) (lastUserId : Int) (coin coin' : String)
    (h : cacheHit s lastUserId coin = false) :
    cacheEntry (getUserListJson s lastUserId coin).2 coin' =
      if coin' = coin then some ⟨lastUserId, buildJson (partition s coin) lastUserId⟩
      else cacheEntry s coin' := by
  rw [getUserListJson_miss s lastUserId coin h]
  by_cases hc : coin' = coin
  · subst hc
    simp [cacheEntry, StdMap.find_assign_self]
  · simp [cacheEntry, hc, StdMap.find_assign_ne coin' coin _ _ hc,
      StdMap.find_touch_ne coin' coin _ hc]

theorem partition_getUserUpdateTime (s : State) (puname coin coin' : String) :
    partition (getUserUpdateTime s puname coin).2 coin' = partition s coin' := by
  rw [getUserUpdateTime_snd]
  rfl

theorem updateTimes_getUserUpdateTime (s : State) (puname coin coin' : String) :
    updateTimes (getUserUpdateTime s puname coin).2 coin' = updateTimes s coin' := by
  rw [getUserUpdateTime_snd]
  simp [updateTimes, StdMap.index_touch]

theorem cacheEntry_getUserUpdateTime (s : State) (puname coin coin' : String) :
    cacheEntry (getUserUpdateTime s puname coin).2 coin' = cacheEntry s coin' := by
  rw [getUserUpdateTime_snd]
  rfl

/-! ## Cache coherence -/

theorem buildJson_isEmpty (userIDMap : StdMap Int String) (lastUserId : Int) :
    (buildJson userIDMap lastUserId).isEmpty = false := by
  rw [Bool.eq_false_iff]
  intro h
  have h2 := congrArg String.length ((String.isEmpty_iff _).mp h)
  simp only [buildJson, serialize, String.length_append] at h2
  have h3 : "\x7d\x7d".length = 2 := rfl
  have h4 : "".length = 0 := rfl
  omega

theorem coherent_empty : Coherent State.empty := by
  intro coin cache h
  simp [cacheEntry, State.empty, StdMap.find] at h

theorem coherent_addUser (s : State) (puid : Int) (puname coin : String) (now : Int)
    (hs : Coherent s) : Coherent (addUser s puid puname coin now) := by
  intro coin' cache h
  rw [cacheEntry_addUser] at h
  by_cases hc : coin' = coin ∨ coin' = ""
  · simp [hc] at h
  · rw [if_neg hc] at h
    rw [partition_addUser, if_neg hc]
    exact hs coin' cache h

theorem coherent_getUserListJson (s : State) (lastUserId : Int) (coin : String)
    (hs : Coherent s) : Coherent (getUserListJson s lastUserId coin).2 := by
  cases hh : cacheHit s lastUserId coin with
  | true =>
    rw [getUserListJson_hit s lastUserId coin hh]
    exact hs
  | false =>
    intro coin' cache h
    rw [cacheEntry_getUserListJson_miss s lastUserId coin coin' hh] at h
    rw [partition_getUserListJson]
    by_cases hc : coin' = coin
    · subst hc
      simp only [if_true, Option.some.injEq] at h
      subst h
      rfl
    · rw [if_neg hc] at h
      exact hs coin' cache h

theorem coherent_getUserUpdateTime (s : State) (puname coin : String)
    (hs : Coherent s) : Coherent (getUserUpdateTime s puname coin).2 := by
  intro coin' cache h
  rw [cacheEntry_getUserUpdateTime] at h
  rw [partition_getUserUpdateTime]
  exact hs coin' cache h

theorem coherent_step (s : State) (op : Op) (hs : Coherent s) : Coherent (step s op) := by
  cases op with
  | addUser puid puname coin now => exact coherent_addUser s puid puname coin now hs
  | getUserListJson lastUserId coin => exact coherent_getUserListJson s lastUserId coin hs
  | getUserUpdateTime puname coin => exact coherent_getUserUpdateTime s puname coin hs

theorem coherent_runFrom (ops : List Op) (s : State) (hs : Coherent s) :
    Coherent (runFrom s ops) := by
  induction ops generalizing s with
  | nil => exact hs
  | cons op rest ih => exact ih (step s op) (coherent_step s op hs)

theorem coherent_run (ops : List Op) : Coherent (run ops) :=
  coherent_runFrom ops State.empty coherent_empty

/-- In a coherent state a read returns the rebuild, hit or miss. -/
theorem getUserListJson_fst_of_coherent (s : State) (lastUserId : Int) (coin : String)
    (hs : Coherent s) :
    (getUserListJson s lastUserId coin).1 = buildJson (partition s coin) lastUserId := by
  cases hh : cacheHit s lastUserId coin with
  | true =>
    rw [getUserListJson_hit s lastUserId coin hh]
    obtain ⟨cache, hc, _, hk⟩ := cacheEntry_of_cacheHit s lastUserId coin hh
    have hidx : StdMap.index coin s.userListJsonCaches = cache := by
      unfold cacheEntry at hc
      simp [StdMap.index, hc]
    simp only [hidx]
    rw [hs coin cache hc, hk]
  | false => rw [getUserListJson_miss s lastUserId coin hh]

theorem getUserListJson_fst_run (ops : List Op) (lastUserId : Int) (coin : String) :
    (getUserListJson (run ops) lastUserId coin).1
      = buildJson (partition (run ops) coin) lastUserId :=
  getUserListJson_fst_of_coherent _ _ _ (coherent_run ops)

/-! ## The serialization loop against the specified format -/

theorem intercalate_go_append (json acc sep : String) (items : List String) :
    String.intercalate.go (json ++ acc) sep items
      = json ++ String.intercalate.go acc sep items := by
  induction items generalizing acc with
  | nil => simp [String.intercalate.go]
  | cons a rest ih =>
    simp only [String.intercalate.go]
    rw [← ih (acc ++ sep ++ a)]
    simp only [String.append_assoc]

theorem appendEntries_cons_eq_go (json : String) (e : Int × String)
    (rest : List (Int × String)) :
    appendEntries json (e :: rest)
      = String.intercalate.go (json ++ specItem e) "," (rest.map specItem) := by
  induction rest generalizing json e with
  | nil =>
    obtain ⟨puid, puname⟩ := e
    simp [appendEntries, String.intercalate.go, specItem, String.append_assoc]
  | cons e' rest' ih =>
    obtain ⟨puid, puname⟩ := e
    rw [appendEntries]
    simp only [ne_eq, reduceCtorEq, not_false_eq_true, if_true]
    rw [ih]
    simp [String.intercalate.go, specItem, String.append_assoc]

theorem appendEntries_eq_intercalate (json : String) (entries : List (Int × String)) :
    appendEntries json entries
      = json ++ String.intercalate "," (entries.map specItem) := by
  cases entries with
  | nil => simp [appendEntries, String.intercalate]
  | cons e rest =>
    rw [appendEntries_cons_eq_go, intercalate_go_append]
    simp [String.intercalate]

theorem serialize_eq_specDocument (entries : List (Int × String)) :
    serialize entries = specDocument entries := by
  simp only [serialize, specDocument, appendEntries_eq_intercalate]

theorem buildJson_eq_specDocument (userIDMap : StdMap Int String) (lastUserId : Int) :
    buildJson userIDMap lastUserId = specDocument (startIter userIDMap lastUserId) :=
  serialize_eq_specDocument _

theorem appendEntries_length (json : String) (entries : List (Int × String)) :
    (appendEntries json entries).length
      = json.length + ((entries.map fun e => (specItem e).length).sum + (entries.length - 1)) := by
  induction entries generalizing json with
  | nil => simp [appendEntries]
  | cons e iter ih =>
    obtain ⟨puid, puname⟩ := e
    rw [appendEntries]
    rw [ih]
    have hc : ",".length = 1 := rfl
    cases iter with
    | nil => simp [specItem, String.length_append]; omega
    | cons e' t => simp [specItem, String.length_append, hc]; omega

theorem endsWithoutComma_append (a b : String) (h : EndsWithoutComma b) :
    EndsWithoutComma (a ++ b) := by
  obtain ⟨front, c, hb, hc⟩ := h
  exact ⟨a.data ++ front, c, by simp [String.data_append, hb], hc⟩

theorem digitChar_ne_comma (n : Nat) : Nat.digitChar (n % 10) ≠ ',' := by
  have h : n % 10 < 10 := Nat.mod_lt n (by decide)
  generalize n % 10 = d at h
  interval_cases d <;> decide

theorem toDigitsCore_keeps_last (fuel n : Nat) (front : List Char) (c : Char) :
    ∃ front', Nat.toDigitsCore 10 fuel n (front ++ [c]) = front' ++ [c] := by
  induction fuel generalizing n front with
  | zero => exact ⟨front, rfl⟩
  | succ fuel ih =>
    unfold Nat.toDigitsCore
    simp only []
    split_ifs
    · exact ⟨Nat.digitChar (n % 10) :: front, rfl⟩
    · exact ih (n / 10) (Nat.digitChar (n % 10) :: front)

theorem endsWithoutComma_repr (n : Nat) : EndsWithoutComma (Nat.repr n) := by
  unfold Nat.repr Nat.toDigits
  unfold Nat.toDigitsCore
  simp only []
  split_ifs
  · exact ⟨[], Nat.digitChar (n % 10), rfl, digitChar_ne_comma _⟩
  · obtain ⟨front', h⟩ := toDigitsCore_keeps_last n (n / 10) [] (Nat.digitChar (n % 10))
    refine ⟨front', Nat.digitChar (n % 10), ?_, digitChar_ne_comma _⟩
    simpa [List.asString] using h

theorem endsWithoutComma_to_string (n : Int) : EndsWithoutComma (to_string n) := by
  cases n with
  | ofNat m => exact endsWithoutComma_repr m
  | negSucc m => exact endsWithoutComma_append "-" _ (endsWithoutComma_repr (m + 1))

theorem endsWithoutComma_appendEntries (json : String) (entries : List (Int × String))
    (h : entries = [] → EndsWithoutComma json) :
    EndsWithoutComma (appendEntries json entries) := by
  induction entries generalizing json with
  | nil => exact h rfl
  | cons e iter ih =>
    obtain ⟨puid, puname⟩ := e
    rw [appendEntries]
    apply ih
    intro hnil
    subst hnil
    simp only [ne_eq, not_true_eq_false, if_false]
    exact endsWithoutComma_append _ _ (endsWithoutComma_to_string puid)

theorem not_trailing_comma (t : String) (h : EndsWithoutComma t) :
    ¬ ∃ front : String, t ++ "\x7d\x7d" = front ++ ",\x7d\x7d" := by
  rintro ⟨front, hf⟩
  obtain ⟨fr, c, ht, hc⟩ := h
  have h1 := congrArg String.data hf
  simp only [String.data_append, ht] at h1
  have h2 : (fr ++ [c]) ++ ['\x7d', '\x7d'] = (front.data ++ [',']) ++ ['\x7d', '\x7d'] := by
    simpa using h1
  have h3 := List.append_cancel_right h2
  have h4 := (List.append_inj' h3 rfl).2
  simp only [List.cons.injEq, and_true] at h4
  exact hc h4

/-! ## Partitions stay sorted -/

theorem StdMap.mem_assign {K V : Type} [DecidableEq K] [Less K] (k : K) (v : V)
    (m : StdMap K V) (e : K × V) (h : e ∈ StdMap.assign k v m) : e = (k, v) ∨ e ∈ m := by
  induction m with
  | nil => simpa [StdMap.assign] using h
  | cons e' rest ih =>
    obtain ⟨k', v'⟩ := e'
    unfold StdMap.assign at h
    by_cases h1 : Less.less k k' = true
    · simpa [h1] using h
    · by_cases h2 : k = k'
      · subst h2
        have h1' : Less.less k k = false := by simpa using h1
        simp only [h1', if_true, Bool.false_eq_true, if_false, List.mem_cons] at h
        rcases h with h | h
        · exact Or.inl h
        · exact Or.inr (List.mem_cons_of_mem _ h)
      · simp only [h1, h2, Bool.false_eq_true, if_false, List.mem_cons] at h
        rcases h with h | h
        · exact Or.inr (h ▸ List.mem_cons_self _ _)
        · rcases ih h with h | h
          · exact Or.inl h
          · exact Or.inr (List.mem_cons_of_mem _ h)

theorem sortedById_assign (puid : Int) (puname : String) (m : StdMap Int String)
    (h : SortedById m) : SortedById (StdMap.assign puid puname m) := by
  unfold SortedById at h ⊢
  induction m with
  | nil => simp [StdMap.assign]
  | cons e rest ih =>
    obtain ⟨k', v'⟩ := e
    rw [List.pairwise_cons] at h
    obtain ⟨hhead, htail⟩ := h
    unfold StdMap.assign
    by_cases h1 : puid < k'
    · have h1' : Less.less puid k' = true := by simp [Less.less, h1]
      simp only [h1', if_true]
      refine List.Pairwise.cons ?_ (List.Pairwise.cons hhead htail)
      intro e he
      rcases List.mem_cons.mp he with he | he
      · subst he
        exact h1
      · exact lt_trans h1 (hhead e he)
    · have h1' : Less.less puid k' = false := by simp [Less.less, h1]
      by_cases h2 : puid = k'
      · subst h2
        simp only [h1', Bool.false_eq_true, if_false, if_true]
        exact List.Pairwise.cons hhead htail
      · simp only [h1', h2, Bool.false_eq_true, if_false]
        refine List.Pairwise.cons ?_ (ih htail)
        intro e he
        rcases StdMap.mem_assign puid puname rest e he with he | he
        · subst he
          show k' < puid
          omega
        · exact hhead e he

theorem sortedState_empty : SortedState State.empty := by
  intro coin
  simp [SortedById, partition, State.empty, StdMap.index, StdMap.find, default]

theorem sortedState_addUser (s : State) (puid : Int) (puname coin : String) (now : Int)
    (hs : SortedState s) : SortedState (addUser s puid puname coin now) := by
  intro coin'
  rw [partition_addUser]
  split_ifs
  · exact sortedById_assign puid puname _ (hs coin')
  · exact hs coin'

theorem sortedState_step (s : State) (op : Op) (hs : SortedState s) :
    SortedState (step s op) := by
  cases op with
  | addUser puid puname coin now => exact sortedState_addUser s puid puname coin now hs
  | getUserListJson lastUserId coin =>
    intro coin'
    simp only [step, partition_getUserListJson]
    exact hs coin'
  | getUserUpdateTime puname coin =>
    intro coin'
    simp only [step, partition_getUserUpdateTime]
    exact hs coin'

theorem sortedState_runFrom (ops : List Op) (s : State) (hs : SortedState s) :
    SortedState (runFrom s ops) := by
  induction ops generalizing s with
  | nil => exact hs
  | cons op rest ih => exact ih (step s op) (sortedState_step s op hs)

theorem sortedState_run (ops : List Op) : SortedState (run ops) :=
  sortedState_runFrom ops State.empty sortedState_empty

/-- On a sorted map `upper_bound` leaves exactly the entries above the cursor. -/
theorem upper_bound_eq_entriesAbove (lastUserId : Int) (m : StdMap Int String)
    (h : SortedById m) : StdMap.upper_bound lastUserId m = entriesAbove lastUserId m := by
  unfold SortedById at h
  induction m with
  | nil => rfl
  | cons e rest ih =>
    rw [List.pairwise_cons] at h
    obtain ⟨hhead, htail⟩ := h
    by_cases h1 : lastUserId < e.1
    · have hall : ∀ x ∈ rest, decide (lastUserId < x.1) = true := by
        intro x hx
        have := hhead x hx
        simp only [decide_eq_true_eq]
        omega
      simp [StdMap.upper_bound, entriesAbove, List.dropWhile_cons, List.filter_cons,
        Less.less, h1, List.filter_eq_self.mpr hall]
    · have ih' := ih htail
      simp only [StdMap.upper_bound, entriesAbove, Less.less] at ih'
      simp [StdMap.upper_bound, entriesAbove, List.dropWhile_cons, List.filter_cons,
        Less.less, h1, ih']

theorem sortedById_entriesAbove (lastUserId : Int) (m : StdMap Int String)
    (h : SortedById m) : SortedById (entriesAbove lastUserId m) :=
  List.Pairwise.filter _ h

theorem nodup_ids_of_sortedById (m : StdMap Int String) (h : SortedById m) :
    (m.map Prod.fst).Nodup := by
  unfold SortedById at h
  rw [List.Nodup, List.pairwise_map]
  exact h.imp (fun hab => ne_of_lt hab)

/-! ## The claims -/

/-- C1. Cache coherence: in every state reached from the empty state by any
sequence of calls, `getUserListJson(k, c)` returns exactly the document an
uncached rebuild from the current partition of `c` at cursor `k` produces, and
every cache entry stored for `c` holds the rebuild of the current partition of
`c` at the cursor stored with it. -/
theorem C1_cache_coherence (ops : List Op) (lastUserId : Int) (coin : String) :
    (getUserListJson (run ops) lastUserId coin).1
        = buildJson (partition (run ops) coin) lastUserId
      ∧ ∀ cache, cacheEntry (run ops) coin = some cache →
          cache.json = buildJson (partition (run ops) coin) cache.lastUserId :=
  ⟨getUserListJson_fst_run ops lastUserId coin, fun cache h => coherent_run ops coin cache h⟩

/-- C2. For a positive cursor `k`, in every reachable state, the loop of
`getUserListJson(k, c)` visits exactly the entries of the partition of `c` whose
id is strictly greater than `k`, the returned document is the specified
document of those entries, they are in strictly ascending id order, no id
occurs twice, and an entry is listed if and only if it is in the partition with
an id above `k`. -/
theorem C2_positive_cursor_page (ops : List Op) (lastUserId : Int) (coin : String)
    (hk : 0 < lastUserId) :
    startIter (partition (run ops) coin) lastUserId
        = entriesAbove lastUserId (partition (run ops) coin)
      ∧ (getUserListJson (run ops) lastUserId coin).1
        = specDocument (entriesAbove lastUserId (partition (run ops) coin))
      ∧ SortedById (entriesAbove lastUserId (partition (run ops) coin))
      ∧ ((entriesAbove lastUserId (partition (run ops) coin)).map Prod.fst).Nodup
      ∧ ∀ puid puname, (puid, puname) ∈ entriesAbove lastUserId (partition (run ops) coin)
          ↔ (puid, puname) ∈ partition (run ops) coin ∧ lastUserId < puid := by
  have hsorted := sortedState_run ops coin
  have hiter : startIter (partition (run ops) coin) lastUserId
      = entriesAbove lastUserId (partition (run ops) coin) := by
    unfold startIter
    rw [if_neg (by omega)]
    exact upper_bound_eq_entriesAbove lastUserId _ hsorted
  refine ⟨hiter, ?_, sortedById_entriesAbove _ _ hsorted,
    nodup_ids_of_sortedById _ (sortedById_entriesAbove _ _ hsorted), ?_⟩
  · rw [getUserListJson_fst_run, buildJson_eq_specDocument, hiter]
  · intro puid puname
    simp [entriesAbove, List.mem_filter]

/-- C2, the scenario of the specification: after `addUser(1,"alice","BTC")` and
`addUser(2,"bob","BTC")`, `getUserListJson(1,"BTC")` lists `bob` alone. -/
theorem C2_positive_cursor_page_witness :
    (0 : Int) < 1
      ∧ (getUserListJson (run [.addUser 1 "alice" "BTC" 100, .addUser 2 "bob" "BTC" 101])
          1 "BTC").1 = "\x7b\"err_no\":0,\"err_msg\":null,\"data\":\x7b\"bob\":2\x7d\x7d" :=
  ⟨by decide,
    (C2_positive_cursor_page [.addUser 1 "alice" "BTC" 100, .addUser 2 "bob" "BTC" 101]
      1 "BTC" (by decide)).2.1.trans (by decide)⟩

/-- C3. For a zero or negative cursor `k`, in every reachable state, the loop
of `getUserListJson(k, c)` visits the whole partition of `c` (entries with a
zero or negative id included), the returned document is the specified document
of the whole partition, and the partition is in strictly ascending id order
with no id twice. -/
theorem C3_nonpositive_cursor_full_listing (ops : List Op) (lastUserId : Int)
    (coin : String) (hk : lastUserId ≤ 0) :
    startIter (partition (run ops) coin) lastUserId = partition (run ops) coin
      ∧ (getUserListJson (run ops) lastUserId coin).1
        = specDocument (partition (run ops) coin)
      ∧ SortedById (partition (run ops) coin)
      ∧ ((partition (run ops) coin).map Prod.fst).Nodup := by
  have hsorted := sortedState_run ops coin
  have hiter : startIter (partition (run ops) coin) lastUserId = partition (run ops) coin := by
    unfold startIter
    rw [if_pos hk]
    rfl
  refine ⟨hiter, ?_, hsorted, nodup_ids_of_sortedById _ hsorted⟩
  rw [getUserListJson_fst_run, buildJson_eq_specDocument, hiter]

/-- C3, the scenario of the specification: after `addUser(1,"alice","BTC")`,
`getUserListJson(0,"BTC")` lists `alice`. -/
theorem C3_nonpositive_cursor_full_listing_witness :
    (0 : Int) ≤ 0
      ∧ (getUserListJson (run [.addUser 1 "alice" "BTC" 100]) 0 "BTC").1
          = "\x7b\"err_no\":0,\"err_msg\":null,\"data\":\x7b\"alice\":1\x7d\x7d" :=
  ⟨by decide,
    (C3_nonpositive_cursor_full_listing [.addUser 1 "alice" "BTC" 100] 0 "BTC"
      (by decide)).2.1.trans (by decide)⟩

/-- C4. Serialization format: for every list of entries the loop of
`getUserListJson` may visit, the document it builds is the envelope's opening,
the items `"handle":id` (the handle verbatim between two double quotes, a
colon, the id in signed decimal) joined by single commas, and `}}`; its length
is that of the envelope and of the items plus exactly `n - 1` separators; and
it never ends with a comma before the closing braces. -/
theorem C4_serialization_format (entries : List (Int × String)) :
    serialize entries
        = "\x7b\"err_no\":0,\"err_msg\":null,\"data\":\x7b"
            ++ String.intercalate "," (entries.map specItem) ++ "\x7d\x7d"
      ∧ (∀ puid puname, specItem (puid, puname) = "\"" ++ puname ++ "\":" ++ to_string puid)
      ∧ (∀ n : Nat, to_string (Int.ofNat n) = Nat.repr n
          ∧ to_string (Int.negSucc n) = "-" ++ Nat.repr (n + 1))
      ∧ (serialize entries).length
        = "\x7b\"err_no\":0,\"err_msg\":null,\"data\":\x7b".length
            + (entries.map fun e => (specItem e).length).sum + (entries.length - 1)
            + "\x7d\x7d".length
      ∧ ¬ ∃ front : String, serialize entries = front ++ ",\x7d\x7d" := by
  refine ⟨serialize_eq_specDocument entries, fun _ _ => rfl, fun _ => ⟨rfl, rfl⟩, ?_, ?_⟩
  · simp only [serialize, String.length_append, appendEntries_length]
    omega
  · apply not_trailing_comma
    apply endsWithoutComma_appendEntries
    intro _
    exact ⟨"\x7b\"err_no\":0,\"err_msg\":null,\"data\":".data, '\x7b', rfl, by decide⟩

/-! ### Reads between writes -/

theorem runFrom_append (s : State) (ops ops' : List Op) :
    runFrom s (ops ++ ops') = runFrom (runFrom s ops) ops' := by
  simp [runFrom, List.foldl_append]

theorem partition_step_of_not_affects (s : State) (op : Op) (coin : String)
    (h : op.affects coin = false) : partition (step s op) coin = partition s coin := by
  cases op with
  | addUser puid puname coin' now =>
    simp only [Op.affects, Bool.or_eq_false_iff, beq_eq_false_iff_ne, ne_eq] at h
    have hc : ¬ (coin = coin' ∨ coin = "") := by
      rintro (h1 | h1)
      · exact h.1 h1.symm
      · exact h.2 h1
    simp only [step, partition_addUser, if_neg hc]
  | getUserListJson lastUserId coin' => simp only [step, partition_getUserListJson]
  | getUserUpdateTime puname coin' => simp only [step, partition_getUserUpdateTime]

theorem partition_runFrom_of_not_affects (ops : List Op) (s : State) (coin : String)
    (h : ∀ op ∈ ops, op.affects coin = false) :
    partition (runFrom s ops) coin = partition s coin := by
  induction ops generalizing s with
  | nil => rfl
  | cons op rest ih =>
    have h1 := ih (step s op) (fun o ho => h o (List.mem_cons_of_mem _ ho))
    have h2 := partition_step_of_not_affects s op coin (h op (List.mem_cons_self _ _))
    simp only [runFrom, List.foldl_cons] at h1 ⊢
    rw [h1, h2]

theorem cacheHit_after_getUserListJson (s : State) (lastUserId : Int) (coin : String) :
    cacheHit (getUserListJson s lastUserId coin).2 lastUserId coin = true := by
  cases hh : cacheHit s lastUserId coin with
  | true =>
    rw [getUserListJson_hit s lastUserId coin hh]
    exact hh
  | false =>
    have hc := cacheEntry_getUserListJson_miss s lastUserId coin coin hh
    rw [if_pos rfl] at hc
    exact cacheHit_of_cacheEntry _ coin _ hc (buildJson_isEmpty _ _)

theorem cacheHit_of_cacheEntry_none (s : State) (lastUserId : Int) (coin : String)
    (h : cacheEntry s coin = none) : cacheHit s lastUserId coin = false := by
  unfold cacheEntry at h
  rw [cacheHit_eq]
  simp [StdMap.index, h, default, String.isEmpty]

/-- C5. Cache-hit idempotence: from every reachable state, two calls of
`getUserListJson(k, c)` separated by any calls of which none is an `addUser`
writing to the partition of `c` return the same document; and right after a
call of `getUserListJson(k, c)` the same call is a cache hit that returns the
same document and leaves the state as it is. -/
theorem C5_cache_hit_idempotence (ops between : List Op) (lastUserId : Int) (coin : String)
    (hbetween : ∀ op ∈ between, op.affects coin = false) :
    (getUserListJson (runFrom (getUserListJson (run ops) lastUserId coin).2 between)
        lastUserId coin).1 = (getUserListJson (run ops) lastUserId coin).1
      ∧ cacheHit (getUserListJson (run ops) lastUserId coin).2 lastUserId coin = true
      ∧ getUserListJson (getUserListJson (run ops) lastUserId coin).2 lastUserId coin
        = ((getUserListJson (run ops) lastUserId coin).1,
            (getUserListJson (run ops) lastUserId coin).2) := by
  have hreach : runFrom (getUserListJson (run ops) lastUserId coin).2 between
      = run (ops ++ Op.getUserListJson lastUserId coin :: between) := by
    simp [run, runFrom, List.foldl_append, step]
  have hhit := cacheHit_after_getUserListJson (run ops) lastUserId coin
  have hco : Coherent (getUserListJson (run ops) lastUserId coin).2 :=
    coherent_getUserListJson _ _ _ (coherent_run ops)
  refine ⟨?_, hhit, ?_⟩
  · rw [hreach, getUserListJson_fst_run, ← hreach,
      partition_runFrom_of_not_affects between _ coin hbetween,
      partition_getUserListJson, getUserListJson_fst_run]
  · have h1 := getUserListJson_fst_of_coherent _ lastUserId coin hco
    rw [partition_getUserListJson, ← getUserListJson_fst_run] at h1
    rw [getUserListJson_hit _ lastUserId coin hhit] at h1 ⊢
    simp only at h1
    rw [h1]

/-- C5 on a run: a read of `BTC`, then a write to `LTC` and two other reads,
then the same read of `BTC` again. -/
theorem C5_cache_hit_idempotence_witness :
    (∀ op ∈ [Op.addUser 3 "carol" "LTC" 102, Op.getUserListJson 0 "", Op.getUserUpdateTime "bob" "BTC"],
        op.affects "BTC" = false)
      ∧ (getUserListJson (runFrom (getUserListJson
            (run [.addUser 1 "alice" "BTC" 100, .addUser 2 "bob" "BTC" 101]) 1 "BTC").2
            [Op.addUser 3 "carol" "LTC" 102, Op.getUserListJson 0 "", Op.getUserUpdateTime "bob" "BTC"])
          1 "BTC").1 = "\x7b\"err_no\":0,\"err_msg\":null,\"data\":\x7b\"bob\":2\x7d\x7d" :=
  ⟨by decide,
    (C5_cache_hit_idempotence [.addUser 1 "alice" "BTC" 100, .addUser 2 "bob" "BTC" 101]
      [Op.addUser 3 "carol" "LTC" 102, Op.getUserListJson 0 "", Op.getUserUpdateTime "bob" "BTC"]
      1 "BTC" (by decide)).1.trans (by decide)⟩

/-- C6. Write invalidation: after `addUser(id, handle, c)` from any state there
is no snapshot-cache entry for `c` and none for the merged coin `""`, so for
every cursor the next `getUserListJson` on `c` or on `""` misses the cache and
returns the rebuild from the updated partition. -/
theorem C6_write_invalidation (s : State) (puid : Int) (puname coin : String) (now : Int)
    (lastUserId : Int) :
    cacheEntry (addUser s puid puname coin now) coin = none
      ∧ cacheEntry (addUser s puid puname coin now) "" = none
      ∧ cacheHit (addUser s puid puname coin now) lastUserId coin = false
      ∧ cacheHit (addUser s puid puname coin now) lastUserId "" = false
      ∧ (getUserListJson (addUser s puid puname coin now) lastUserId coin).1
        = buildJson (StdMap.assign puid puname (partition s coin)) lastUserId
      ∧ (getUserListJson (addUser s puid puname coin now) lastUserId "").1
        = buildJson (StdMap.assign puid puname (partition s "")) lastUserId := by
  have h1 : cacheEntry (addUser s puid puname coin now) coin = none := by
    rw [cacheEntry_addUser, if_pos (Or.inl rfl)]
  have h2 : cacheEntry (addUser s puid puname coin now) "" = none := by
    rw [cacheEntry_addUser, if_pos (Or.inr rfl)]
  have h3 := cacheHit_of_cacheEntry_none _ lastUserId coin h1
  have h4 := cacheHit_of_cacheEntry_none _ lastUserId "" h2
  refine ⟨h1, h2, h3, h4, ?_, ?_⟩
  · rw [getUserListJson_miss _ _ _ h3, partition_addUser, if_pos (Or.inl rfl)]
  · rw [getUserListJson_miss _ _ _ h4, partition_addUser, if_pos (Or.inr rfl)]

/-! ### Partitions and indexes as the latest writes -/

theorem run_snoc (ops : List Op) (op : Op) : run (ops ++ [op]) = step (run ops) op := by
  simp [run, runFrom, List.foldl_append]

theorem lastAddUser_snoc_addUser (sel : AddUserCall → Bool) (ops : List Op)
    (puid : Int) (puname coin : String) (now : Int) :
    lastAddUser sel (ops ++ [.addUser puid puname coin now])
      = if sel ⟨puid, puname, coin, now⟩ then some ⟨puid, puname, coin, now⟩
        else lastAddUser sel ops := by
  simp [lastAddUser, List.foldl_append]

theorem lastAddUser_snoc_getUserListJson (sel : AddUserCall → Bool) (ops : List Op)
    (lastUserId : Int) (coin : String) :
    lastAddUser sel (ops ++ [.getUserListJson lastUserId coin]) = lastAddUser sel ops := by
  simp [lastAddUser, List.foldl_append]

theorem lastAddUser_snoc_getUserUpdateTime (sel : AddUserCall → Bool) (ops : List Op)
    (puname coin : String) :
    lastAddUser sel (ops ++ [.getUserUpdateTime puname coin]) = lastAddUser sel ops := by
  simp [lastAddUser, List.foldl_append]

theorem StdMap.find_assign {K V : Type} [DecidableEq K] [Less K] (j k : K) (v : V)
    (m : StdMap K V) :
    StdMap.find j (StdMap.assign k v m) = if j = k then some v else StdMap.find j m := by
  by_cases h : j = k
  · subst h
    simp [StdMap.find_assign_self]
  · simp [h, StdMap.find_assign_ne j k v m h]

/-- The partition of `coin` maps `puid` to the handle of the latest call that
wrote `puid` into it. -/
theorem find_partition_run (ops : List Op) (coin : String) (puid : Int) :
    StdMap.find puid (partition (run ops) coin)
      = (lastAddUser (writesId coin puid) ops).map (fun a => a.puname) := by
  induction ops using List.reverseRecOn with
  | nil => rfl
  | append_singleton ops op ih =>
    rw [run_snoc]
    cases op with
    | addUser puid' puname' coin' now' =>
      rw [lastAddUser_snoc_addUser]
      simp only [step, partition_addUser, writesId, decide_eq_true_eq]
      by_cases hc : coin = coin' ∨ coin = ""
      · have hc' : coin' = coin ∨ coin = "" := hc.imp Eq.symm id
        rw [if_pos hc, StdMap.find_assign, ih]
        by_cases hid : puid = puid'
        · subst hid
          simp [hc', writesId]
        · have hid' : ¬ puid' = puid := fun e => hid e.symm
          simp [hid, hid', writesId]
      · have hc' : ¬ (coin' = coin ∨ coin = "") := fun e => hc (e.imp Eq.symm id)
        rw [if_neg hc, ih]
        simp [hc', writesId]
    | getUserListJson lastUserId coin' =>
      rw [lastAddUser_snoc_getUserListJson]
      simp only [step, partition_getUserListJson]
      exact ih
    | getUserUpdateTime puname' coin' =>
      rw [lastAddUser_snoc_getUserUpdateTime]
      simp only [step, partition_getUserUpdateTime]
      exact ih

/-- The update-time index of `coin` maps `puname` to the clock reading of the
latest call that wrote `puname` into it. -/
theorem find_updateTimes_run (ops : List Op) (coin puname : String) :
    StdMap.find puname (updateTimes (run ops) coin)
      = (lastAddUser (writesName coin puname) ops).map (fun a => a.now) := by
  induction ops using List.reverseRecOn with
  | nil => rfl
  | append_singleton ops op ih =>
    rw [run_snoc]
    cases op with
    | addUser puid' puname' coin' now' =>
      rw [lastAddUser_snoc_addUser]
      simp only [step, updateTimes_addUser, writesName, decide_eq_true_eq]
      by_cases hc : coin = coin' ∨ coin = ""
      · have hc' : coin' = coin ∨ coin = "" := hc.imp Eq.symm id
        rw [if_pos hc, StdMap.find_assign, ih]
        by_cases hid : puname = puname'
        · subst hid
          simp [hc', writesName]
        · have hid' : ¬ puname' = puname := fun e => hid e.symm
          simp [hid, hid', writesName]
      · have hc' : ¬ (coin' = coin ∨ coin = "") := fun e => hc (e.imp Eq.symm id)
        rw [if_neg hc, ih]
        simp [hc', writesName]
    | getUserListJson lastUserId coin' =>
      rw [lastAddUser_snoc_getUserListJson]
      simp only [step, updateTimes_getUserListJson]
      exact ih
    | getUserUpdateTime puname' coin' =>
      rw [lastAddUser_snoc_getUserUpdateTime]
      simp only [step, updateTimes_getUserUpdateTime]
      exact ih

theorem StdMap.mem_of_find {K V : Type} [DecidableEq K] (k : K) (v : V) (m : StdMap K V)
    (h : StdMap.find k m = some v) : (k, v) ∈ m := by
  induction m with
  | nil => simp [StdMap.find] at h
  | cons e rest ih =>
    obtain ⟨k', v'⟩ := e
    unfold StdMap.find at h
    by_cases hk : k' = k
    · subst hk
      simp only [if_true, Option.some.injEq] at h
      subst h
      exact List.mem_cons_self _ _
    · rw [if_neg hk] at h
      exact List.mem_cons_of_mem _ (ih h)

theorem find_of_mem_sorted (puid : Int) (puname : String) (m : StdMap Int String)
    (hs : SortedById m) (h : (puid, puname) ∈ m) : StdMap.find puid m = some puname := by
  unfold SortedById at hs
  induction m with
  | nil => simp at h
  | cons e rest ih =>
    obtain ⟨k', v'⟩ := e
    rw [List.pairwise_cons] at hs
    rcases List.mem_cons.mp h with h | h
    · cases h
      simp [StdMap.find]
    · have hlt : k' < puid := hs.1 _ h
      have hne : ¬ k' = puid := by omega
      simp only [StdMap.find, if_neg hne]
      exact ih hs.2 h

theorem mem_partition_run_iff (ops : List Op) (coin : String) (puid : Int) (puname : String) :
    (puid, puname) ∈ partition (run ops) coin
      ↔ StdMap.find puid (partition (run ops) coin) = some puname :=
  ⟨find_of_mem_sorted puid puname _ (sortedState_run ops coin), StdMap.mem_of_find puid puname _⟩

theorem lastAddUser_mem (sel : AddUserCall → Bool) (ops : List Op) (a : AddUserCall)
    (h : lastAddUser sel ops = some a) :
    Op.addUser a.puid a.puname a.coin a.now ∈ ops ∧ sel a = true := by
  induction ops using List.reverseRecOn with
  | nil => simp [lastAddUser] at h
  | append_singleton ops op ih =>
    cases op with
    | addUser puid' puname' coin' now' =>
      rw [lastAddUser_snoc_addUser] at h
      by_cases hsel : sel ⟨puid', puname', coin', now'⟩ = true
      · rw [if_pos hsel] at h
        cases h
        exact ⟨by simp, hsel⟩
      · rw [if_neg hsel] at h
        exact ⟨List.mem_append_left _ (ih h).1, (ih h).2⟩
    | getUserListJson lastUserId coin' =>
      rw [lastAddUser_snoc_getUserListJson] at h
      exact ⟨List.mem_append_left _ (ih h).1, (ih h).2⟩
    | getUserUpdateTime puname' coin' =>
      rw [lastAddUser_snoc_getUserUpdateTime] at h
      exact ⟨List.mem_append_left _ (ih h).1, (ih h).2⟩

/-- The latest write of `puid` under any coin exists whenever some coin's
partition was written with `puid`, and it is that write when it went to the
same partition. -/
theorem lastAddUser_merged_of_coin (ops : List Op) (coin : String) (puid : Int)
    (a : AddUserCall) (h : lastAddUser (writesId coin puid) ops = some a) :
    ∃ b, lastAddUser (writesId "" puid) ops = some b
      ∧ (b.coin = coin ∨ coin = "" → b = a) := by
  induction ops using List.reverseRecOn generalizing a with
  | nil => simp [lastAddUser] at h
  | append_singleton ops op ih =>
    cases op with
    | addUser puid' puname' coin' now' =>
      rw [lastAddUser_snoc_addUser] at h ⊢
      by_cases hid : puid' = puid
      · by_cases hc : coin' = coin ∨ coin = ""
        · have h1 : writesId coin puid ⟨puid', puname', coin', now'⟩ = true := by
            simp [writesId, hid, hc]
          rw [if_pos h1] at h
          cases h
          exact ⟨_, by simp [writesId, hid], fun _ => rfl⟩
        · refine ⟨⟨puid', puname', coin', now'⟩, by simp [writesId, hid], ?_⟩
          intro hcc
          exact absurd hcc hc
      · have h1 : writesId coin puid ⟨puid', puname', coin', now'⟩ = false := by
          simp [writesId, hid]
        have h2 : writesId "" puid ⟨puid', puname', coin', now'⟩ = false := by
          simp [writesId, hid]
        rw [h1] at h
        rw [h2]
        simpa using ih a (by simpa using h)
    | getUserListJson lastUserId coin' =>
      rw [lastAddUser_snoc_getUserListJson] at h ⊢
      exact ih a h
    | getUserUpdateTime puname' coin' =>
      rw [lastAddUser_snoc_getUserUpdateTime] at h ⊢
      exact ih a h

/-- The latest write of `puid` under any coin is also the latest write of `puid`
into the partition of the coin it was made under. -/
theorem lastAddUser_coin_of_merged (ops : List Op) (puid : Int) (b : AddUserCall)
    (h : lastAddUser (writesId "" puid) ops = some b) :
    lastAddUser (writesId b.coin puid) ops = some b := by
  induction ops using List.reverseRecOn with
  | nil => simp [lastAddUser] at h
  | append_singleton ops op ih =>
    cases op with
    | addUser puid' puname' coin' now' =>
      rw [lastAddUser_snoc_addUser] at h ⊢
      by_cases hid : puid' = puid
      · have h1 : writesId "" puid ⟨puid', puname', coin', now'⟩ = true := by
          simp [writesId, hid]
        rw [if_pos h1] at h
        cases h
        simp [writesId, hid]
      · have h1 : writesId "" puid ⟨puid', puname', coin', now'⟩ = false := by
          simp [writesId, hid]
        have h2 : writesId b.coin puid ⟨puid', puname', coin', now'⟩ = false := by
          simp [writesId, hid]
        rw [h1] at h
        rw [h2]
        simpa using ih (by simpa using h)
    | getUserListJson lastUserId coin' =>
      rw [lastAddUser_snoc_getUserListJson] at h ⊢
      exact ih h
    | getUserUpdateTime puname' coin' =>
      rw [lastAddUser_snoc_getUserUpdateTime] at h ⊢
      exact ih h

theorem lastAddUser_of_mem_partition (ops : List Op) (coin : String) (puid : Int)
    (puname : String) (h : (puid, puname) ∈ partition (run ops) coin) :
    ∃ a, lastAddUser (writesId coin puid) ops = some a ∧ a.puname = puname := by
  have h1 := (mem_partition_run_iff ops coin puid puname).mp h
  rw [find_partition_run] at h1
  cases hl : lastAddUser (writesId coin puid) ops with
  | none => simp [hl] at h1
  | some a =>
    rw [hl] at h1
    exact ⟨a, rfl, by simpa using h1⟩

theorem mem_partition_of_lastAddUser (ops : List Op) (coin : String) (puid : Int)
    (a : AddUserCall) (h : lastAddUser (writesId coin puid) ops = some a) :
    (puid, a.puname) ∈ partition (run ops) coin := by
  apply StdMap.mem_of_find
  rw [find_partition_run, h]
  rfl

/-- C7, as stated, fails: after `addUser(1,"alice","BTC")` and
`addUser(1,"bob","LTC")` the partition of `BTC` holds `(1, "alice")` while the
merged partition holds `(1, "bob")`. -/
theorem C7_merged_mirror_counterexample :
    ¬ MergedMirror (run [.addUser 1 "alice" "BTC" 100, .addUser 1 "bob" "LTC" 101]) := by
  intro h
  have h1 := h "BTC" 1 "alice" (by decide)
  revert h1
  decide

/-- C7, amended. After any sequence of calls from the empty state, every id
present in a coin's partition is present in the merged partition, with the
handle of the most recent `addUser` of that id under any coin; the entry
`(id, h)` of the partition of `c` is in the merged partition with the same
handle `h` whenever that most recent `addUser` was made under `c`. -/
theorem C7_merged_mirror_latest_handle (ops : List Op) (coin : String) (puid : Int)
    (puname : String) (h : (puid, puname) ∈ partition (run ops) coin) :
    ∃ latest, lastAddUser (writesId "" puid) ops = some latest
      ∧ (puid, latest.puname) ∈ partition (run ops) ""
      ∧ (latest.coin = coin ∨ coin = "" → (puid, puname) ∈ partition (run ops) "") := by
  obtain ⟨a, ha, hname⟩ := lastAddUser_of_mem_partition ops coin puid puname h
  obtain ⟨b, hb, hba⟩ := lastAddUser_merged_of_coin ops coin puid a ha
  refine ⟨b, hb, mem_partition_of_lastAddUser ops "" puid b hb, ?_⟩
  intro hc
  have hmem := mem_partition_of_lastAddUser ops "" puid b hb
  rw [hba hc, hname] at hmem
  exact hmem

/-- C7, amended, on a run: `alice` was written as id 1 under `BTC` and id 2 was
then written under `LTC`, so `(1, "alice")` is mirrored. -/
theorem C7_merged_mirror_latest_handle_witness :
    (1, "alice") ∈ partition (run [.addUser 1 "alice" "BTC" 100, .addUser 2 "bob" "LTC" 101]) "BTC"
      ∧ ∃ latest, lastAddUser (writesId "" 1)
            [.addUser 1 "alice" "BTC" 100, .addUser 2 "bob" "LTC" 101] = some latest
          ∧ (1, latest.puname)
            ∈ partition (run [.addUser 1 "alice" "BTC" 100, .addUser 2 "bob" "LTC" 101]) ""
          ∧ (latest.coin = "BTC" ∨ "BTC" = "" → (1, "alice")
            ∈ partition (run [.addUser 1 "alice" "BTC" 100, .addUser 2 "bob" "LTC" 101]) "") :=
  ⟨by decide,
    C7_merged_mirror_latest_handle [.addUser 1 "alice" "BTC" 100, .addUser 2 "bob" "LTC" 101]
      "BTC" 1 "alice" (by decide)⟩

/-- C8. Merged partition contains nothing beyond the union: after any sequence
of calls from the empty state in which no `addUser` uses coin `""`, every entry
of the merged partition is an entry of the partition of some real coin, and an
id is in the merged partition if and only if it is in the partition of some
real coin. -/
theorem C8_merged_within_union (ops : List Op) (hreal : ∀ op ∈ ops, op.usesMergedCoin = false) :
    (∀ puid puname, (puid, puname) ∈ partition (run ops) "" →
        ∃ coin, coin ≠ "" ∧ (puid, puname) ∈ partition (run ops) coin)
      ∧ ∀ puid, puid ∈ (partition (run ops) "").map Prod.fst
          ↔ ∃ coin, coin ≠ "" ∧ puid ∈ (partition (run ops) coin).map Prod.fst := by
  have hentry : ∀ puid puname, (puid, puname) ∈ partition (run ops) "" →
      ∃ coin, coin ≠ "" ∧ (puid, puname) ∈ partition (run ops) coin := by
    intro puid puname h
    obtain ⟨b, hb, hname⟩ := lastAddUser_of_mem_partition ops "" puid puname h
    have hcall := (lastAddUser_mem _ ops b hb).1
    have hne : b.coin ≠ "" := by
      have := hreal _ hcall
      simpa [Op.usesMergedCoin] using this
    refine ⟨b.coin, hne, ?_⟩
    have := mem_partition_of_lastAddUser ops b.coin puid b (lastAddUser_coin_of_merged ops puid b hb)
    rwa [hname] at this
  refine ⟨hentry, ?_⟩
  intro puid
  constructor
  · intro h
    obtain ⟨e, he, hfst⟩ := List.mem_map.mp h
    obtain ⟨puid', puname⟩ := e
    simp only at hfst
    subst hfst
    obtain ⟨coin, hne, hmem⟩ := hentry puid' puname he
    exact ⟨coin, hne, List.mem_map.mpr ⟨(puid', puname), hmem, rfl⟩⟩
  · rintro ⟨coin, _, h⟩
    obtain ⟨e, he, hfst⟩ := List.mem_map.mp h
    obtain ⟨puid', puname⟩ := e
    simp only at hfst
    subst hfst
    obtain ⟨a, ha, _⟩ := lastAddUser_of_mem_partition ops coin puid' puname he
    obtain ⟨b, hb, _⟩ := lastAddUser_merged_of_coin ops coin puid' a ha
    exact List.mem_map.mpr ⟨(puid', b.puname), mem_partition_of_lastAddUser ops "" puid' b hb, rfl⟩

/-- C8, the scenario of the specification: after `addUser(1,"alice","BTC")` and
`addUser(2,"bob","BTC")`, `getUserListJson(0,"")` lists exactly `alice:1` and
`bob:2`, both entries of the partition of `BTC`. -/
theorem C8_merged_within_union_witness :
    (∀ op ∈ [Op.addUser 1 "alice" "BTC" 100, Op.addUser 2 "bob" "BTC" 101],
        op.usesMergedCoin = false)
      ∧ (∀ puid puname,
          (puid, puname) ∈ partition (run [.addUser 1 "alice" "BTC" 100, .addUser 2 "bob" "BTC" 101]) "" →
          ∃ coin, coin ≠ "" ∧ (puid, puname)
            ∈ partition (run [.addUser 1 "alice" "BTC" 100, .addUser 2 "bob" "BTC" 101]) coin)
      ∧ (getUserListJson (run [.addUser 1 "alice" "BTC" 100, .addUser 2 "bob" "BTC" 101]) 0 "").1
          = "\x7b\"err_no\":0,\"err_msg\":null,\"data\":\x7b\"alice\":1,\"bob\":2\x7d\x7d" :=
  ⟨by decide,
    (C8_merged_within_union [.addUser 1 "alice" "BTC" 100, .addUser 2 "bob" "BTC" 101]
      (by decide)).1,
    by decide⟩

/-- C9, as stated, fails for the merged coin: after `addUser(1,"alice","BTC")`
at clock reading 100 no `addUser(_, "alice", "")` has been called, yet
`getUserUpdateTime("alice", "")` returns 100, not 0. -/
theorem C9_update_time_counterexample :
    ¬ UpdateTimeAsStated [.addUser 1 "alice" "BTC" 100] "alice" "" := by
  unfold UpdateTimeAsStated
  decide

/-- C9, amended. After any sequence of calls from the empty state,
`getUserUpdateTime(h, c)` for a real coin `c` returns 0 if no `addUser(_, h, c)`
has been called and otherwise the clock reading of the most recent
`addUser(_, h, c)`; for the merged coin `""` it returns 0 if no `addUser` has
named `h` under any coin and otherwise the clock reading of the most recent
`addUser` naming `h` under any coin. -/
theorem C9_update_time_latest_write (ops : List Op) (puname coin : String) :
    (getUserUpdateTime (run ops) puname coin).1
      = match (if coin = "" then lastAddUser (namesHandle puname) ops
          else lastAddUser (isAddUserOf coin puname) ops) with
        | none => 0
        | some a => a.now := by
  rw [getUserUpdateTime_fst, find_updateTimes_run]
  by_cases hc : coin = ""
  · have hsel : writesName coin puname = namesHandle puname := by
      funext a
      simp [writesName, namesHandle, hc]
    rw [if_pos hc, hsel]
    cases lastAddUser (namesHandle puname) ops <;> rfl
  · have hsel : writesName coin puname = isAddUserOf coin puname := by
      funext a
      simp [writesName, isAddUserOf, hc]
    rw [if_neg hc, hsel]
    cases lastAddUser (isAddUserOf coin puname) ops <;> rfl

/-- C10. Effect of `addUser`: from every state whose partitions are in
`std::map` order, after `addUser(id, handle, c)` the partition of `c` and the
merged partition hold the entry `(id, handle)` and no other entry for `id`,
every partition is still in strictly ascending id order with no id twice, and
the update-time index of `c` and the merged index map `handle` to `now`. The
call is a total function of the state: it returns for every id, handle and coin. -/
theorem C10_addUser_effect (s : State) (puid : Int) (puname coin : String) (now : Int)
    (hs : SortedState s) :
    (puid, puname) ∈ partition (addUser s puid puname coin now) coin
      ∧ (puid, puname) ∈ partition (addUser s puid puname coin now) ""
      ∧ (∀ other, (puid, other) ∈ partition (addUser s puid puname coin now) coin →
          other = puname)
      ∧ (∀ other, (puid, other) ∈ partition (addUser s puid puname coin now) "" →
          other = puname)
      ∧ SortedState (addUser s puid puname coin now)
      ∧ (∀ coin', ((partition (addUser s puid puname coin now) coin').map Prod.fst).Nodup)
      ∧ StdMap.find puname (updateTimes (addUser s puid puname coin now) coin) = some now
      ∧ StdMap.find puname (updateTimes (addUser s puid puname coin now) "") = some now
      ∧ (getUserUpdateTime (addUser s puid puname coin now) puname coin).1 = now
      ∧ (getUserUpdateTime (addUser s puid puname coin now) puname "").1 = now := by
  have hsorted := sortedState_addUser s puid puname coin now hs
  have hf1 : StdMap.find puid (partition (addUser s puid puname coin now) coin) = some puname := by
    rw [partition_addUser, if_pos (Or.inl rfl), StdMap.find_assign_self]
  have hf2 : StdMap.find puid (partition (addUser s puid puname coin now) "") = some puname := by
    rw [partition_addUser, if_pos (Or.inr rfl), StdMap.find_assign_self]
  have ht1 : StdMap.find puname (updateTimes (addUser s puid puname coin now) coin) = some now := by
    rw [updateTimes_addUser, if_pos (Or.inl rfl), StdMap.find_assign_self]
  have ht2 : StdMap.find puname (updateTimes (addUser s puid puname coin now) "") = some now := by
    rw [updateTimes_addUser, if_pos (Or.inr rfl), StdMap.find_assign_self]
  refine ⟨StdMap.mem_of_find _ _ _ hf1, StdMap.mem_of_find _ _ _ hf2, ?_, ?_, hsorted,
    fun coin' => nodup_ids_of_sortedById _ (hsorted coin'), ht1, ht2, ?_, ?_⟩
  · intro other hmem
    have := find_of_mem_sorted puid other _ (hsorted coin) hmem
    rw [hf1] at this
    exact (Option.some.inj this).symm
  · intro other hmem
    have := find_of_mem_sorted puid other _ (hsorted "") hmem
    rw [hf2] at this
    exact (Option.some.inj this).symm
  · rw [getUserUpdateTime_fst, ht1]
    rfl
  · rw [getUserUpdateTime_fst, ht2]
    rfl

/-- C10 on a run: id 1 is `alice` under `BTC`, and `addUser(1,"al","BTC")` at
clock reading 200 overwrites the handle in both partitions. -/
theorem C10_addUser_effect_witness :
    SortedState (run [.addUser 1 "alice" "BTC" 100, .addUser 2 "bob" "BTC" 101])
      ∧ partition (addUser (run [.addUser 1 "alice" "BTC" 100, .addUser 2 "bob" "BTC" 101])
          1 "al" "BTC" 200) "BTC" = [(1, "al"), (2, "bob")]
      ∧ (1, "al") ∈ partition (addUser
          (run [.addUser 1 "alice" "BTC" 100, .addUser 2 "bob" "BTC" 101]) 1 "al" "BTC" 200) "" :=
  ⟨sortedState_run _, by decide,
    (C10_addUser_effect (run [.addUser 1 "alice" "BTC" 100, .addUser 2 "bob" "BTC" 101])
      1 "al" "BTC" 200 (sortedState_run _)).2.1⟩

/-! ### Unknown coins, the cursor itself, and the frame of the reads -/

theorem partition_empty (coin : String) : partition State.empty coin = [] := rfl

theorem buildJson_nil (lastUserId : Int) :
    buildJson [] lastUserId = "\x7b\"err_no\":0,\"err_msg\":null,\"data\":\x7b\x7d\x7d" := by
  unfold buildJson startIter
  split_ifs <;> rfl

/-- C11. Unknown coin degrades to an empty result: in every reachable state,
for every cursor and every coin whose partition no `addUser` call has written
(no call named the coin, and for the merged coin `""` no `addUser` was called
at all), `getUserListJson(k, c)` returns the document with the empty `data`
object. The call is a total function of the state, so it does not fail. -/
theorem C11_unknown_coin_empty_document (ops : List Op) (lastUserId : Int) (coin : String)
    (hunknown : ∀ op ∈ ops, op.affects coin = false) :
    (getUserListJson (run ops) lastUserId coin).1
        = "\x7b\"err_no\":0,\"err_msg\":null,\"data\":\x7b\x7d\x7d"
      ∧ partition (run ops) coin = [] := by
  have hp : partition (run ops) coin = [] := by
    unfold run
    rw [partition_runFrom_of_not_affects ops State.empty coin hunknown, partition_empty]
  refine ⟨?_, hp⟩
  rw [getUserListJson_fst_run, hp, buildJson_nil]

/-- C11 on a run: `BTC` has users and was read, `LTC` was never named; a read
of `LTC` at a positive cursor gives the empty document. -/
theorem C11_unknown_coin_empty_document_witness :
    (∀ op ∈ [Op.addUser 1 "alice" "BTC" 100, Op.getUserListJson 0 "BTC",
          Op.getUserUpdateTime "alice" "LTC"], op.affects "LTC" = false)
      ∧ (getUserListJson (run [Op.addUser 1 "alice" "BTC" 100, Op.getUserListJson 0 "BTC",
          Op.getUserUpdateTime "alice" "LTC"]) 7 "LTC").1
        = "\x7b\"err_no\":0,\"err_msg\":null,\"data\":\x7b\x7d\x7d" :=
  ⟨by decide,
    (C11_unknown_coin_empty_document [Op.addUser 1 "alice" "BTC" 100, Op.getUserListJson 0 "BTC",
      Op.getUserUpdateTime "alice" "LTC"] 7 "LTC" (by decide)).1⟩

/-- C12, as stated, fails for a cursor that is not positive: after
`addUser(0,"zero","BTC")` the read `getUserListJson(0,"BTC")` starts at
`begin()` and lists the entry whose id is the cursor 0. -/
theorem C12_cursor_exclusivity_counterexample :
    ¬ CursorExclusive (run [.addUser 0 "zero" "BTC" 100]) 0 "BTC" := by
  intro h
  exact h (0, "zero") (by decide) rfl

/-- C12, amended. In every reachable state, for every coin and every positive
cursor `k`, the document `getUserListJson(k, c)` returns is the specified
document of the entries the loop lists, and each of them has an id strictly
greater than `k`, so none has the cursor as its id. -/
theorem C12_positive_cursor_exclusive (ops : List Op) (lastUserId : Int) (coin : String)
    (hk : 0 < lastUserId) :
    (getUserListJson (run ops) lastUserId coin).1
        = specDocument (startIter (partition (run ops) coin) lastUserId)
      ∧ (∀ e ∈ startIter (partition (run ops) coin) lastUserId, lastUserId < e.1)
      ∧ CursorExclusive (run ops) lastUserId coin := by
  have hiter : startIter (partition (run ops) coin) lastUserId
      = entriesAbove lastUserId (partition (run ops) coin) := by
    unfold startIter
    rw [if_neg (by omega)]
    exact upper_bound_eq_entriesAbove lastUserId _ (sortedState_run ops coin)
  have habove : ∀ e ∈ startIter (partition (run ops) coin) lastUserId, lastUserId < e.1 := by
    intro e he
    rw [hiter] at he
    simpa using (List.mem_filter.mp he).2
  refine ⟨?_, habove, ?_⟩
  · rw [getUserListJson_fst_run, buildJson_eq_specDocument]
  · intro e he
    have := habove e he
    omega

/-- C12, amended, on a run: with ids 1 and 2 under `BTC`, the page at cursor 1
lists id 2 alone. -/
theorem C12_positive_cursor_exclusive_witness :
    (0 : Int) < 1
      ∧ startIter (partition (run [.addUser 1 "alice" "BTC" 100, .addUser 2 "bob" "BTC" 101])
          "BTC") 1 = [(2, "bob")]
      ∧ CursorExclusive (run [.addUser 1 "alice" "BTC" 100, .addUser 2 "bob" "BTC" 101])
          1 "BTC" :=
  ⟨by decide, by decide,
    (C12_positive_cursor_exclusive [.addUser 1 "alice" "BTC" 100, .addUser 2 "bob" "BTC" 101]
      1 "BTC" (by decide)).2.2⟩

/-- C13, as stated, fails for a coin never seen before: `userUpdateTimeMaps[coin]`
inserts an empty index for the coin, so from the empty state the state after
`getUserUpdateTime("alice","BTC")` is not the state before it. -/
theorem C13_getUserUpdateTime_state_counterexample :
    (getUserUpdateTime State.empty "alice" "BTC").2 ≠ State.empty := by
  decide

/-- C13, amended. From every state, `getUserUpdateTime(h, c)` leaves every
coin's partition, every coin's update-time index and every snapshot-cache entry
unchanged, and does not touch the id maps and the caches at all; the state
after the call is the state before it when the coin already has an update-time
index, and otherwise the state with an empty index inserted for the coin. -/
theorem C13_getUserUpdateTime_frame (s : State) (puname coin : String) :
    (∀ coin', partition (getUserUpdateTime s puname coin).2 coin' = partition s coin'
        ∧ updateTimes (getUserUpdateTime s puname coin).2 coin' = updateTimes s coin'
        ∧ cacheEntry (getUserUpdateTime s puname coin).2 coin' = cacheEntry s coin')
      ∧ (getUserUpdateTime s puname coin).2.userIDMaps = s.userIDMaps
      ∧ (getUserUpdateTime s puname coin).2.userListJsonCaches = s.userListJsonCaches
      ∧ (getUserUpdateTime s puname coin).2
        = if (StdMap.find coin s.userUpdateTimeMaps).isSome then s
          else { s with userUpdateTimeMaps := StdMap.assign coin [] s.userUpdateTimeMaps } := by
  refine ⟨fun coin' => ⟨partition_getUserUpdateTime s puname coin coin',
    updateTimes_getUserUpdateTime s puname coin coin',
    cacheEntry_getUserUpdateTime s puname coin coin'⟩, ?_, ?_, ?_⟩
  · rw [getUserUpdateTime_snd]
  · rw [getUserUpdateTime_snd]
  · rw [getUserUpdateTime_snd]
    unfold StdMap.touch
    cases hf : StdMap.find coin s.userUpdateTimeMaps with
    | some v => simp
    | none => simp [default]

theorem StdMap.erase_assign {K V : Type} [DecidableEq K] [Less K] (k : K) (v : V)
    (m : StdMap K V) : StdMap.erase k (StdMap.assign k v m) = StdMap.erase k m := by
  induction m with
  | nil => simp [StdMap.assign, StdMap.erase]
  | cons e rest ih =>
    obtain ⟨k', v'⟩ := e
    unfold StdMap.assign
    by_cases h1 : Less.less k k' = true
    · simp [h1, StdMap.erase, List.filter_cons]
    · by_cases h2 : k = k'
      · subst h2
        simp [h1, StdMap.erase, List.filter_cons]
      · have h3 : ¬ k' = k := fun e => h2 e.symm
        simp only [h1, h2, Bool.false_eq_true, if_false]
        simp only [StdMap.erase] at ih
        simp only [StdMap.erase, List.filter_cons, ne_eq, h3, not_false_eq_true, decide_True,
          if_true, ih]

/-- C15. Read transitions of the cache: from every state, after
`getUserListJson(k, c)` has returned the document `d`, the cache entry of `c`
is `(k, d)`; the cache entries of the other coins, every partition and every
update-time index are unchanged; and a cache hit leaves the whole state
unchanged. -/
theorem C15_read_transitions (s : State) (lastUserId : Int) (coin : String) :
    cacheEntry (getUserListJson s lastUserId coin).2 coin
        = some ⟨lastUserId, (getUserListJson s lastUserId coin).1⟩
      ∧ (∀ coin', coin' ≠ coin →
          cacheEntry (getUserListJson s lastUserId coin).2 coin' = cacheEntry s coin')
      ∧ (∀ coin', partition (getUserListJson s lastUserId coin).2 coin' = partition s coin'
          ∧ updateTimes (getUserListJson s lastUserId coin).2 coin' = updateTimes s coin')
      ∧ (getUserListJson s lastUserId coin).2.userUpdateTimeMaps = s.userUpdateTimeMaps
      ∧ (cacheHit s lastUserId coin = true → (getUserListJson s lastUserId coin).2 = s) := by
  refine ⟨?_, ?_, fun coin' => ⟨partition_getUserListJson s lastUserId coin coin',
    updateTimes_getUserListJson s lastUserId coin coin'⟩, ?_, ?_⟩
  · cases hh : cacheHit s lastUserId coin with
    | true =>
      rw [getUserListJson_hit s lastUserId coin hh]
      obtain ⟨cache, hc, _, hk⟩ := cacheEntry_of_cacheHit s lastUserId coin hh
      have hidx : StdMap.index coin s.userListJsonCaches = cache := by
        unfold cacheEntry at hc
        simp [StdMap.index, hc]
      simp only [hidx, hc, ← hk]
    | false =>
      rw [cacheEntry_getUserListJson_miss s lastUserId coin coin hh, if_pos rfl,
        getUserListJson_miss s lastUserId coin hh]
  · intro coin' hne
    cases hh : cacheHit s lastUserId coin with
    | true => rw [getUserListJson_hit s lastUserId coin hh]
    | false => rw [cacheEntry_getUserListJson_miss s lastUserId coin coin' hh, if_neg hne]
  · cases hh : cacheHit s lastUserId coin with
    | true => rw [getUserListJson_hit s lastUserId coin hh]
    | false => rw [getUserListJson_miss s lastUserId coin hh]
  · intro hh
    rw [getUserListJson_hit s lastUserId coin hh]

/-- C16. Frame of `addUser`: from every state, `addUser(id, handle, c)` leaves
the partition, the update-time index and the cache entry of every coin other
than `c` and `""` unchanged; in every partition the entries with another id are
the same, in the same order, and every other id is mapped as before; in every
update-time index the entries of the other handles are the same and every
other handle has the timestamp it had. -/
theorem C16_addUser_frame (s : State) (puid : Int) (puname coin : String) (now : Int) :
    (∀ coin', coin' ≠ coin → coin' ≠ "" →
        partition (addUser s puid puname coin now) coin' = partition s coin'
          ∧ updateTimes (addUser s puid puname coin now) coin' = updateTimes s coin'
          ∧ cacheEntry (addUser s puid puname coin now) coin' = cacheEntry s coin')
      ∧ (∀ coin', (partition (addUser s puid puname coin now) coin').filter
            (fun e => decide (e.1 ≠ puid))
          = (partition s coin').filter (fun e => decide (e.1 ≠ puid)))
      ∧ (∀ coin' other, other ≠ puid →
          StdMap.find other (partition (addUser s puid puname coin now) coin')
            = StdMap.find other (partition s coin'))
      ∧ (∀ coin', (updateTimes (addUser s puid puname coin now) coin').filter
            (fun e => decide (e.1 ≠ puname))
          = (updateTimes s coin').filter (fun e => decide (e.1 ≠ puname)))
      ∧ (∀ coin' other, other ≠ puname →
          StdMap.find other (updateTimes (addUser s puid puname coin now) coin')
            = StdMap.find other (updateTimes s coin')) := by
  refine ⟨?_, ?_, ?_, ?_, ?_⟩
  · intro coin' h1 h2
    have hc : ¬ (coin' = coin ∨ coin' = "") := fun h => h.elim h1 h2
    rw [partition_addUser, updateTimes_addUser, cacheEntry_addUser]
    simp only [if_neg hc, and_self]
  · intro coin'
    rw [partition_addUser]
    split_ifs
    · exact StdMap.erase_assign puid puname _
    · rfl
  · intro coin' other hne
    rw [partition_addUser]
    split_ifs
    · exact StdMap.find_assign_ne other puid puname _ hne
    · rfl
  · intro coin'
    rw [updateTimes_addUser]
    split_ifs
    · exact StdMap.erase_assign puname now _
    · rfl
  · intro coin' other hne
    rw [updateTimes_addUser]
    split_ifs
    · exact StdMap.find_assign_ne other puname now _ hne
    · rfl

/-! ### Pages against each other and against writes below the cursor -/

theorem entriesAbove_entriesAbove (k1 k2 : Int) (m : StdMap Int String) (h : k1 ≤ k2) :
    entriesAbove k2 (entriesAbove k1 m) = entriesAbove k2 m := by
  unfold entriesAbove
  rw [List.filter_filter]
  apply List.filter_congr
  intro e _
  by_cases h2 : k2 < e.1
  · have h1 : k1 < e.1 := by omega
    simp [h1, h2]
  · simp [h2]

theorem startIter_of_nonpos (m : StdMap Int String) (k : Int) (hk : k ≤ 0) :
    startIter m k = m := by
  unfold startIter
  rw [if_pos hk]
  rfl

theorem startIter_of_pos (m : StdMap Int String) (k : Int) (hk : 0 < k) :
    startIter m k = StdMap.upper_bound k m := by
  unfold startIter
  rw [if_neg (by omega)]

theorem startIter_suffix (m : StdMap Int String) (k : Int) :
    List.IsSuffix (startIter m k) m := by
  by_cases hk : k ≤ 0
  · rw [startIter_of_nonpos m k hk]
  · rw [startIter_of_pos m k (by omega)]
    exact List.dropWhile_suffix _

theorem startIter_suffix_of_le (m : StdMap Int String) (hm : SortedById m) (k1 k2 : Int)
    (h : k1 ≤ k2) : List.IsSuffix (startIter m k2) (startIter m k1) := by
  by_cases h1 : k1 ≤ 0
  · rw [startIter_of_nonpos m k1 h1]
    exact startIter_suffix m k2
  · have hk1 : 0 < k1 := by omega
    have hk2 : 0 < k2 := by omega
    rw [startIter_of_pos m k1 hk1, startIter_of_pos m k2 hk2,
      upper_bound_eq_entriesAbove k1 m hm, upper_bound_eq_entriesAbove k2 m hm,
      ← entriesAbove_entriesAbove k1 k2 m h,
      ← upper_bound_eq_entriesAbove k2 _ (sortedById_entriesAbove k1 m hm)]
    exact List.dropWhile_suffix _

/-- C17. Cursor monotonicity: in every reachable state, for every coin and all
cursors `k1 ≤ k2` of any sign, the entries `getUserListJson(k2, c)` lists are a
suffix of the entries `getUserListJson(k1, c)` lists, and a suffix of the full
listing at cursor 0; the two returned documents are the specified documents of
those entry lists. -/
theorem C17_cursor_monotonicity (ops : List Op) (coin : String) (k1 k2 : Int)
    (h : k1 ≤ k2) :
    List.IsSuffix (startIter (partition (run ops) coin) k2)
        (startIter (partition (run ops) coin) k1)
      ∧ List.IsSuffix (startIter (partition (run ops) coin) k2)
        (startIter (partition (run ops) coin) 0)
      ∧ (getUserListJson (run ops) k1 coin).1
        = specDocument (startIter (partition (run ops) coin) k1)
      ∧ (getUserListJson (run ops) k2 coin).1
        = specDocument (startIter (partition (run ops) coin) k2)
      ∧ (getUserListJson (run ops) 0 coin).1
        = specDocument (startIter (partition (run ops) coin) 0) := by
  refine ⟨startIter_suffix_of_le _ (sortedState_run ops coin) k1 k2 h, ?_, ?_, ?_, ?_⟩
  · rw [startIter_of_nonpos _ 0 (le_refl 0)]
    exact startIter_suffix _ k2
  · rw [getUserListJson_fst_run, buildJson_eq_specDocument]
  · rw [getUserListJson_fst_run, buildJson_eq_specDocument]
  · rw [getUserListJson_fst_run, buildJson_eq_specDocument]

/-- C17 on a run: with ids -3, 1 and 2 under `BTC`, the page at cursor 1 is a
suffix of the page at cursor -3, which is the full listing. -/
theorem C17_cursor_monotonicity_witness :
    (-3 : Int) ≤ 1
      ∧ startIter (partition (run [.addUser 2 "bob" "BTC" 100, .addUser (-3) "neg" "BTC" 101,
          .addUser 1 "alice" "BTC" 102]) "BTC") (-3)
        = [(-3, "neg"), (1, "alice"), (2, "bob")]
      ∧ startIter (partition (run [.addUser 2 "bob" "BTC" 100, .addUser (-3) "neg" "BTC" 101,
          .addUser 1 "alice" "BTC" 102]) "BTC") 1 = [(2, "bob")]
      ∧ List.IsSuffix
          (startIter (partition (run [.addUser 2 "bob" "BTC" 100, .addUser (-3) "neg" "BTC" 101,
            .addUser 1 "alice" "BTC" 102]) "BTC") 1)
          (startIter (partition (run [.addUser 2 "bob" "BTC" 100, .addUser (-3) "neg" "BTC" 101,
            .addUser 1 "alice" "BTC" 102]) "BTC") (-3)) :=
  ⟨by decide, by decide, by decide,
    (C17_cursor_monotonicity [.addUser 2 "bob" "BTC" 100, .addUser (-3) "neg" "BTC" 101,
      .addUser 1 "alice" "BTC" 102] "BTC" (-3) 1 (by decide)).1⟩

theorem entriesAbove_assign (k puid : Int) (puname : String) (m : StdMap Int String)
    (h : puid ≤ k) : entriesAbove k (StdMap.assign puid puname m) = entriesAbove k m := by
  have hsplit : ∀ l : StdMap Int String,
      entriesAbove k l = entriesAbove k (StdMap.erase puid l) := by
    intro l
    unfold entriesAbove StdMap.erase
    rw [List.filter_filter]
    apply List.filter_congr
    intro e _
    by_cases h2 : k < e.1
    · have h1 : e.1 ≠ puid := by omega
      simp [h1, h2]
    · simp [h2]
  rw [hsplit (StdMap.assign puid puname m), StdMap.erase_assign, ← hsplit m]

theorem buildJson_assign_of_le (k puid : Int) (puname : String) (m : StdMap Int String)
    (hm : SortedById m) (hk : 0 < k) (h : puid ≤ k) :
    buildJson (StdMap.assign puid puname m) k = buildJson m k := by
  unfold buildJson
  rw [startIter_of_pos _ k hk, startIter_of_pos _ k hk,
    upper_bound_eq_entriesAbove k _ (sortedById_assign puid puname m hm),
    upper_bound_eq_entriesAbove k m hm, entriesAbove_assign k puid puname m h]

/-- C18. Writes at or below the cursor are invisible to that page: in every
reachable state, for a positive cursor `k` and an id not above `k`, the
document `getUserListJson(k, c)` returns right after `addUser(id, handle, c)`
is the document it would have returned just before the write, and so is the
merged page `getUserListJson(k, "")`. -/
theorem C18_write_below_cursor_invisible (ops : List Op) (coin : String)
    (lastUserId puid : Int) (puname : String) (now : Int)
    (hk : 0 < lastUserId) (hid : puid ≤ lastUserId) :
    (getUserListJson (addUser (run ops) puid puname coin now) lastUserId coin).1
        = (getUserListJson (run ops) lastUserId coin).1
      ∧ (getUserListJson (addUser (run ops) puid puname coin now) lastUserId "").1
        = (getUserListJson (run ops) lastUserId "").1 := by
  have hstep : addUser (run ops) puid puname coin now
      = run (ops ++ [Op.addUser puid puname coin now]) := by
    rw [run_snoc]
    rfl
  constructor
  · rw [hstep, getUserListJson_fst_run, ← hstep, getUserListJson_fst_run, partition_addUser,
      if_pos (Or.inl rfl)]
    exact buildJson_assign_of_le lastUserId puid puname _ (sortedState_run ops coin) hk hid
  · rw [hstep, getUserListJson_fst_run, ← hstep, getUserListJson_fst_run, partition_addUser,
      if_pos (Or.inr rfl)]
    exact buildJson_assign_of_le lastUserId puid puname _ (sortedState_run ops "") hk hid

/-- C18 on a run: the page of `BTC` at cursor 1 is cached, then id 1 is given a
new handle; the page at cursor 1 still lists `bob` alone. -/
theorem C18_write_below_cursor_invisible_witness :
    (0 : Int) < 1 ∧ (1 : Int) ≤ 1
      ∧ (getUserListJson (addUser (run [.addUser 1 "alice" "BTC" 100, .addUser 2 "bob" "BTC" 101,
          .getUserListJson 1 "BTC"]) 1 "al" "BTC" 102) 1 "BTC").1
        = "\x7b\"err_no\":0,\"err_msg\":null,\"data\":\x7b\"bob\":2\x7d\x7d" :=
  ⟨by decide, by decide,
    (C18_write_below_cursor_invisible [.addUser 1 "alice" "BTC" 100, .addUser 2 "bob" "BTC" 101,
      .getUserListJson 1 "BTC"] "BTC" 1 1 "al" 102 (by decide) (by decide)).1.trans (by decide)⟩

/-! ### The single-map predecessor -/

theorem legacy_appendEntries_eq (json : String) (iter : List (Int × String)) :
    Legacy.appendEntries json iter = appendEntries json iter := by
  induction iter generalizing json with
  | nil => rfl
  | cons e rest ih =>
    obtain ⟨puid, puname⟩ := e
    rw [Legacy.appendEntries, appendEntries]
    exact ih _

theorem legacy_getUserListJson_fst (s : Legacy.State) (lastUserId : Int)
    (hk : 0 ≤ lastUserId) :
    (Legacy.getUserListJson s lastUserId).1 = buildJson s.userIDMap lastUserId := by
  unfold Legacy.getUserListJson buildJson serialize startIter
  simp only [legacy_appendEntries_eq]
  by_cases h0 : lastUserId = 0
  · subst h0
    simp
  · have h1 : ¬ lastUserId ≤ 0 := by omega
    simp [h0, h1]

theorem legacy_getUserListJson_userIDMap (s : Legacy.State) (lastUserId : Int) :
    (Legacy.getUserListJson s lastUserId).2.userIDMap = s.userIDMap := rfl

theorem applyWrites_snoc (ws : List (Int × String)) (w : Int × String) :
    applyWrites (ws ++ [w]) = StdMap.assign w.1 w.2 (applyWrites ws) := by
  simp [applyWrites, List.foldl_append]

theorem legacy_userIDMap_run (lops : List Legacy.Op) :
    (Legacy.run lops).userIDMap = applyWrites (Legacy.writes lops) := by
  induction lops using List.reverseRecOn with
  | nil => rfl
  | append_singleton lops op ih =>
    have hrun : Legacy.run (lops ++ [op]) = Legacy.step (Legacy.run lops) op := by
      simp [Legacy.run, List.foldl_append]
    rw [hrun]
    cases op with
    | addUser puid puname =>
      have hw : Legacy.writes (lops ++ [Legacy.Op.addUser puid puname])
          = Legacy.writes lops ++ [(puid, puname)] := by
        simp [Legacy.writes, List.filterMap_append]
      rw [hw, applyWrites_snoc, ← ih]
      rfl
    | getUserListJson lastUserId =>
      have hw : Legacy.writes (lops ++ [Legacy.Op.getUserListJson lastUserId])
          = Legacy.writes lops := by
        simp [Legacy.writes, List.filterMap_append]
      rw [hw, ← ih]
      rfl

theorem partition_run_eq_applyWrites (ops : List Op) (coin : String)
    (h : ∀ op ∈ ops, op.addsOnlyUnder coin = true) :
    partition (run ops) coin = applyWrites (writes ops)
      ∧ partition (run ops) "" = applyWrites (writes ops) := by
  induction ops using List.reverseRecOn with
  | nil => exact ⟨rfl, rfl⟩
  | append_singleton ops op ih =>
    have ih' := ih (fun o ho => h o (List.mem_append_left _ ho))
    have hop := h op (by simp)
    rw [run_snoc]
    cases op with
    | addUser puid puname coin' now =>
      have hc : coin' = coin := by simpa [Op.addsOnlyUnder] using hop
      subst hc
      have hw : writes (ops ++ [Op.addUser puid puname coin' now])
          = writes ops ++ [(puid, puname)] := by
        simp [writes, List.filterMap_append]
      rw [hw, applyWrites_snoc]
      have h1 : partition (step (run ops) (Op.addUser puid puname coin' now)) coin'
          = StdMap.assign puid puname (partition (run ops) coin') := by
        show partition (addUser (run ops) puid puname coin' now) coin' = _
        rw [partition_addUser, if_pos (Or.inl rfl)]
      have h2 : partition (step (run ops) (Op.addUser puid puname coin' now)) ""
          = StdMap.assign puid puname (partition (run ops) "") := by
        show partition (addUser (run ops) puid puname coin' now) "" = _
        rw [partition_addUser, if_pos (Or.inr rfl)]
      rw [h1, h2, ih'.1, ih'.2]
      exact ⟨rfl, rfl⟩
    | getUserListJson lastUserId coin' =>
      have hw : writes (ops ++ [Op.getUserListJson lastUserId coin']) = writes ops := by
        simp [writes, List.filterMap_append]
      rw [hw]
      simp only [step, partition_getUserListJson]
      exact ih'
    | getUserUpdateTime puname coin' =>
      have hw : writes (ops ++ [Op.getUserUpdateTime puname coin']) = writes ops := by
        simp [writes, List.filterMap_append]
      rw [hw]
      simp only [step, partition_getUserUpdateTime]
      exact ih'

/-- C19. Equivalence with the single-map implementation: when a run of the
multi-coin interface whose `addUser` calls are all under one coin `c` and a run
of the single-map interface make the same `(id, handle)` writes in the same
order, each interleaved with any reads, then for every cursor `k ≥ 0` the
cached `getUserListJson(k, c)` and `getUserListJson(k, "")` both return the
document of the uncached single-map `getUserListJson(k)`. -/
theorem C19_legacy_equivalence (ops : List Op) (lops : List Legacy.Op) (coin : String)
    (lastUserId : Int) (hcoin : ∀ op ∈ ops, op.addsOnlyUnder coin = true)
    (hwrites : writes ops = Legacy.writes lops) (hk : 0 ≤ lastUserId) :
    (getUserListJson (run ops) lastUserId coin).1
        = (Legacy.getUserListJson (Legacy.run lops) lastUserId).1
      ∧ (getUserListJson (run ops) lastUserId "").1
        = (Legacy.getUserListJson (Legacy.run lops) lastUserId).1 := by
  have hp := partition_run_eq_applyWrites ops coin hcoin
  rw [legacy_getUserListJson_fst _ _ hk, legacy_userIDMap_run, ← hwrites,
    getUserListJson_fst_run, getUserListJson_fst_run, hp.1, hp.2]
  exact ⟨rfl, rfl⟩

/-- C19 on a run: the same two writes, with different reads in between, give
the same page at cursor 1 from the multi-coin and the single-map code. -/
theorem C19_legacy_equivalence_witness :
    (∀ op ∈ [Op.addUser 2 "bob" "BTC" 100, Op.getUserListJson 0 "LTC",
          Op.addUser 1 "alice" "BTC" 101, Op.getUserListJson 1 "BTC"],
        op.addsOnlyUnder "BTC" = true)
      ∧ writes [Op.addUser 2 "bob" "BTC" 100, Op.getUserListJson 0 "LTC",
          Op.addUser 1 "alice" "BTC" 101, Op.getUserListJson 1 "BTC"]
        = Legacy.writes [Legacy.Op.getUserListJson 5, Legacy.Op.addUser 2 "bob",
          Legacy.Op.addUser 1 "alice"]
      ∧ (0 : Int) ≤ 1
      ∧ (Legacy.getUserListJson (Legacy.run [Legacy.Op.getUserListJson 5,
          Legacy.Op.addUser 2 "bob", Legacy.Op.addUser 1 "alice"]) 1).1
        = "\x7b\"err_no\":0,\"err_msg\":null,\"data\":\x7b\"bob\":2\x7d\x7d"
      ∧ (getUserListJson (run [Op.addUser 2 "bob" "BTC" 100, Op.getUserListJson 0 "LTC",
          Op.addUser 1 "alice" "BTC" 101, Op.getUserListJson 1 "BTC"]) 1 "BTC").1
        = (Legacy.getUserListJson (Legacy.run [Legacy.Op.getUserListJson 5,
          Legacy.Op.addUser 2 "bob", Legacy.Op.addUser 1 "alice"]) 1).1 :=
  ⟨by decide, by decide, by decide, by decide,
    (C19_legacy_equivalence [Op.addUser 2 "bob" "BTC" 100, Op.getUserListJson 0 "LTC",
      Op.addUser 1 "alice" "BTC" 101, Op.getUserListJson 1 "BTC"]
      [Legacy.Op.getUserListJson 5, Legacy.Op.addUser 2 "bob", Legacy.Op.addUser 1 "alice"]
      "BTC" 1 (by decide) (by decide) (by decide)).1⟩

/-! ### The merged timestamp -/

theorem clockReadings_snoc_addUser (ops : List Op) (puid : Int) (puname coin : String)
    (now : Int) :
    clockReadings (ops ++ [.addUser puid puname coin now]) = clockReadings ops ++ [now] := by
  simp [clockReadings, List.filterMap_append]

theorem clockReadings_snoc_getUserListJson (ops : List Op) (lastUserId : Int) (coin : String) :
    clockReadings (ops ++ [.getUserListJson lastUserId coin]) = clockReadings ops := by
  simp [clockReadings, List.filterMap_append]

theorem clockReadings_snoc_getUserUpdateTime (ops : List Op) (puname coin : String) :
    clockReadings (ops ++ [.getUserUpdateTime puname coin]) = clockReadings ops := by
  simp [clockReadings, List.filterMap_append]

theorem now_mem_clockReadings (sel : AddUserCall → Bool) (ops : List Op) (a : AddUserCall)
    (h : lastAddUser sel ops = some a) : a.now ∈ clockReadings ops := by
  have hmem := (lastAddUser_mem sel ops a h).1
  unfold clockReadings
  rw [List.mem_filterMap]
  exact ⟨_, hmem, rfl⟩

/-- With non-decreasing clock readings, the latest call of a larger selection
is not older than the latest call of a smaller one. -/
theorem lastAddUser_now_le (sel1 sel2 : AddUserCall → Bool)
    (hsub : ∀ a, sel1 a = true → sel2 a = true) (ops : List Op)
    (hmono : (clockReadings ops).Pairwise (fun a b => a ≤ b)) (a : AddUserCall)
    (h : lastAddUser sel1 ops = some a) :
    ∃ b, lastAddUser sel2 ops = some b ∧ a.now ≤ b.now := by
  induction ops using List.reverseRecOn generalizing a with
  | nil => simp [lastAddUser] at h
  | append_singleton ops op ih =>
    cases op with
    | addUser puid' puname' coin' now' =>
      rw [clockReadings_snoc_addUser, List.pairwise_append] at hmono
      obtain ⟨hm1, _, hm3⟩ := hmono
      rw [lastAddUser_snoc_addUser] at h ⊢
      by_cases h1 : sel1 ⟨puid', puname', coin', now'⟩ = true
      · rw [if_pos h1] at h
        cases h
        rw [if_pos (hsub _ h1)]
        exact ⟨_, rfl, le_refl _⟩
      · rw [if_neg h1] at h
        by_cases h2 : sel2 ⟨puid', puname', coin', now'⟩ = true
        · rw [if_pos h2]
          refine ⟨_, rfl, ?_⟩
          exact hm3 a.now (now_mem_clockReadings sel1 ops a h) now' (by simp)
        · rw [if_neg h2]
          exact ih hm1 a h
    | getUserListJson lastUserId coin' =>
      rw [clockReadings_snoc_getUserListJson] at hmono
      rw [lastAddUser_snoc_getUserListJson] at h ⊢
      exact ih hmono a h
    | getUserUpdateTime puname' coin' =>
      rw [clockReadings_snoc_getUserUpdateTime] at hmono
      rw [lastAddUser_snoc_getUserUpdateTime] at h ⊢
      exact ih hmono a h

theorem getUserUpdateTime_fst_run (ops : List Op) (puname coin : String) :
    (getUserUpdateTime (run ops) puname coin).1
      = match lastAddUser (writesName coin puname) ops with
        | none => 0
        | some a => a.now := by
  rw [getUserUpdateTime_fst, find_updateTimes_run]
  cases lastAddUser (writesName coin puname) ops <;> rfl

/-- C20, as stated, fails when a clock reading is negative: after the single
call `addUser(1,"alice","LTC")` at clock reading -1 (the value `time` returns on
failure) the merged timestamp of `alice` is -1 and the timestamp of `alice`
under the unseen coin `BTC` is 0. -/
theorem C20_merged_timestamp_counterexample :
    List.Chain' (fun a b : Int => a ≤ b) (clockReadings [.addUser 1 "alice" "LTC" (-1)])
      ∧ ¬ MergedTimeDominates [.addUser 1 "alice" "LTC" (-1)] "alice" "BTC" := by
  refine ⟨by simp [clockReadings], ?_⟩
  unfold MergedTimeDominates
  decide

/-- C20, amended. After any sequence of calls from the empty state in which the
clock readings of successive `addUser` calls are non-decreasing and none is
negative, for every handle and every coin the merged timestamp
`getUserUpdateTime(h, "")` is at least `getUserUpdateTime(h, c)`, and it is the
clock reading of the most recent `addUser` naming `h` under any coin (0 when no
call named `h`). -/
theorem C20_merged_timestamp_dominates (ops : List Op) (puname coin : String)
    (hmono : List.Chain' (fun a b : Int => a ≤ b) (clockReadings ops))
    (hnonneg : ∀ t ∈ clockReadings ops, 0 ≤ t) :
    (getUserUpdateTime (run ops) puname coin).1 ≤ (getUserUpdateTime (run ops) puname "").1
      ∧ (getUserUpdateTime (run ops) puname "").1
        = match lastAddUser (namesHandle puname) ops with
          | none => 0
          | some a => a.now := by
  have hpair : (clockReadings ops).Pairwise (fun a b => a ≤ b) :=
    List.chain'_iff_pairwise.mp hmono
  have hsel : writesName "" puname = namesHandle puname := by
    funext a
    simp [writesName, namesHandle]
  have hsub : ∀ a, writesName coin puname a = true → writesName "" puname a = true := by
    intro a ha
    simp only [writesName, decide_eq_true_eq] at ha
    simp [writesName, ha.1]
  constructor
  · rw [getUserUpdateTime_fst_run, getUserUpdateTime_fst_run]
    cases h1 : lastAddUser (writesName coin puname) ops with
    | none =>
      cases h2 : lastAddUser (writesName "" puname) ops with
      | none => exact le_refl _
      | some b => exact hnonneg b.now (now_mem_clockReadings _ ops b h2)
    | some a =>
      obtain ⟨b, hb, hle⟩ := lastAddUser_now_le _ _ hsub ops hpair a h1
      rw [hb]
      exact hle
  · rw [getUserUpdateTime_fst_run, hsel]

/-- C20, amended, on a run: `alice` is named under `BTC` at 100 and under `LTC`
at 105; the merged timestamp is 105, above the 100 of `BTC`. -/
theorem C20_merged_timestamp_dominates_witness :
    List.Chain' (fun a b : Int => a ≤ b)
        (clockReadings [.addUser 1 "alice" "BTC" 100, .getUserListJson 0 "",
          .addUser 1 "alice" "LTC" 105])
      ∧ (∀ t ∈ clockReadings [.addUser 1 "alice" "BTC" 100, .getUserListJson 0 "",
          .addUser 1 "alice" "LTC" 105], 0 ≤ t)
      ∧ (getUserUpdateTime (run [.addUser 1 "alice" "BTC" 100, .getUserListJson 0 "",
          .addUser 1 "alice" "LTC" 105]) "alice" "").1 = 105
      ∧ (getUserUpdateTime (run [.addUser 1 "alice" "BTC" 100, .getUserListJson 0 "",
          .addUser 1 "alice" "LTC" 105]) "alice" "BTC").1
        ≤ (getUserUpdateTime (run [.addUser 1 "alice" "BTC" 100, .getUserListJson 0 "",
          .addUser 1 "alice" "LTC" 105]) "alice" "").1 :=
  ⟨by simp [clockReadings], by decide, by decide,
    (C20_merged_timestamp_dominates [.addUser 1 "alice" "BTC" 100, .getUserListJson 0 "",
      .addUser 1 "alice" "LTC" 105] "alice" "BTC" (by simp [clockReadings]) (by decide)).1⟩

end UserListJSON

